import Mathlib

/-!
Verification of the git fast-export parsing/serialization core of
monorepo-git-tools (src/gitfilter/src/export_parser/mod.rs).

Conventions of the embedding:
* Rust byte buffers (`Vec<u8>`, `String` contents viewed through `as_bytes`)
  are modelled as `List Nat`, each entry one byte value.
* The structured data model (`StructuredExportObject` and friends) lives in
  `structured_parse.rs`, which is not among the provided sources; the field
  layout below is reconstructed from its uses in `mod.rs` and from the data
  model section of the specification.
* Fallible code returns `Except`/`Option`; machine integers are `Nat`.
-/

namespace GitFilter

/-- Person record (name/email/timestr) as used by `write_person_info`.
Field layout reconstructed from the uses in `mod.rs` and the spec data model. -/
structure CommitPersonOwned where
  name : Option (List Nat)
  email : List Nat
  timestr : List Nat
deriving DecidableEq, Repr

/-- File operation variants as matched in `write_to_stream`. -/
inductive FileOpsOwned where
  | FileModify (mode dataref path : List Nat)
  | FileDelete (path : List Nat)
  | FileCopy (a b : List Nat)
  | FileRename (a b : List Nat)
  | FileDeleteAll
  | NoteModify (dataref commitish : List Nat)
deriving DecidableEq, Repr

/-- Commit object fields as used in the commit branch of `write_to_stream`. -/
structure CommitObjectOwned where
  commit_ref : List Nat
  mark : Nat
  original_oid : List Nat
  author : Option CommitPersonOwned
  committer : CommitPersonOwned
  commit_message : List Nat
  merges : List Nat
  fileops : List FileOpsOwned
deriving DecidableEq, Repr

/-- Blob object fields as used in the blob branch of `write_to_stream`. -/
structure BlobObjectOwned where
  mark : Nat
  original_oid : List Nat
  data : List Nat
deriving DecidableEq, Repr

/-- The tagged union over commit and blob payloads. -/
inductive StructuredObjectType where
  | Commit (c : CommitObjectOwned)
  | Blob (b : BlobObjectOwned)
deriving DecidableEq, Repr

/-- One top-level parsed unit, as consumed by `write_to_stream` and produced
by the structured builder. -/
structure StructuredExportObject where
  has_feature_done : Bool
  has_reset : Option (List Nat)
  has_reset_from : Option (List Nat)
  data_size : List Nat
  object_type : StructuredObjectType
deriving DecidableEq, Repr

/-- UTF-8 bytes of an ASCII string literal, used for the fixed byte strings
the serializer writes (`b"commit "`, `b"data "`, ...). -/
def strBytes (s : String) : List Nat :=
  s.data.map Char.toNat

/-- Fuel-driven helper for `natToBytes`; with `fuel ≥ n` it renders the
decimal digits of `n` most-significant first (the fuel only makes the
recursion structural, it never runs out on the calls made below). -/
def natToBytesAux : Nat → Nat → List Nat
  | 0, n => [48 + n % 10]
  | fuel + 1, n =>
    if n < 10 then [48 + n]
    else natToBytesAux fuel (n / 10) ++ [48 + n % 10]

/-- Decimal ASCII rendering of a natural number, modelling Rust's
`usize::to_string().as_bytes()`. -/
def natToBytes (n : Nat) : List Nat :=
  natToBytesAux n n

/-- Model of `write_person_info` (mod.rs lines 198-213): the bytes appended for one
author/committer line. -/
def write_person_info (person : CommitPersonOwned) (is_author : Bool) : List Nat :=
  (if is_author then strBytes "author " else strBytes "committer ")
  ++ (match person.name with
      | some name => name ++ [32]
      | none => [])
  ++ [60] ++ person.email ++ strBytes "> " ++ person.timestr ++ [10]

/-- The merge loop of `write_to_stream` (mod.rs lines 268-281): the first
entry is written as a `from :` line, all later ones as `merge :` lines,
mirrored with the `first_merge` flag threaded through a fold. -/
def merge_lines (merges : List Nat) : List Nat :=
  (merges.foldl
    (fun (acc : List Nat × Bool) merge_info =>
      if acc.2 then
        (acc.1 ++ strBytes "from :" ++ natToBytes merge_info ++ [10], false)
      else
        (acc.1 ++ strBytes "merge :" ++ natToBytes merge_info ++ [10], false))
    ([], true)).1

/-- The per-fileop bytes of the fileop match in `write_to_stream`
(mod.rs lines 283-317), without the trailing newline. -/
def fileop_bytes : FileOpsOwned → List Nat
  | .FileModify mode dataref path => strBytes "M " ++ mode ++ [32] ++ dataref ++ [32] ++ path
  | .FileDelete path => strBytes "D " ++ path
  | .FileCopy a b => strBytes "C " ++ a ++ [32] ++ b
  | .FileRename a b => strBytes "R " ++ a ++ [32] ++ b
  | .FileDeleteAll => strBytes "deleteall"
  | .NoteModify dataref commitish => strBytes "N " ++ dataref ++ [32] ++ commitish

/-- The fileop loop of `write_to_stream` (mod.rs lines 282-319): each
operation's bytes followed by a newline. -/
def fileop_lines (fileops : List FileOpsOwned) : List Nat :=
  fileops.foldl (fun acc fileop => acc ++ fileop_bytes fileop ++ [10]) []

/-- Model of `write_to_stream` (mod.rs lines 219-339), as the byte buffer `write_data`
that the function builds and then writes to the sink.  The appends are in
exactly the order of the source: feature line, reset line, reset-from line,
reset blank line, then the commit or blob block. -/
def write_to_stream (obj : StructuredExportObject) : List Nat :=
  (if obj.has_feature_done then strBytes "feature done\n" else [])
  ++ (match obj.has_reset with
      | some reset_ref => strBytes "reset " ++ reset_ref ++ [10]
      | none => [])
  ++ (match obj.has_reset_from with
      | some reset_from => strBytes "from " ++ reset_from ++ [10]
      | none => [])
  ++ (if obj.has_reset.isSome then [10] else [])
  ++ (match obj.object_type with
      | .Commit commit_obj =>
        strBytes "commit " ++ commit_obj.commit_ref ++ [10]
        ++ strBytes "mark :" ++ natToBytes commit_obj.mark ++ [10]
        ++ strBytes "original-oid " ++ commit_obj.original_oid ++ [10]
        ++ (match commit_obj.author with
            | some author => write_person_info author true
            | none => [])
        ++ write_person_info commit_obj.committer false
        ++ strBytes "data " ++ natToBytes commit_obj.commit_message.length ++ [10]
        ++ commit_obj.commit_message ++ [10]
        ++ merge_lines commit_obj.merges
        ++ fileop_lines commit_obj.fileops
        ++ [10]
      | .Blob blob_obj =>
        strBytes "blob\n"
        ++ strBytes "mark :" ++ natToBytes blob_obj.mark ++ [10]
        ++ strBytes "original-oid " ++ blob_obj.original_oid ++ [10]
        ++ strBytes "data " ++ obj.data_size ++ [10]
        ++ blob_obj.data ++ [10])

/-- The feature-done bytes, for stating decompositions of `write_to_stream`. -/
def feature_bytes (has_feature_done : Bool) : List Nat :=
  if has_feature_done then strBytes "feature done\n" else []

/-- The bytes of an optional `from <ref-or-mark>` line, for stating
decompositions of `write_to_stream`. -/
def from_bytes (has_reset_from : Option (List Nat)) : List Nat :=
  match has_reset_from with
  | some reset_from => strBytes "from " ++ reset_from ++ [10]
  | none => []

/-- The whole optional-prefix part of `write_to_stream` before the object
block: feature line, reset line, from line, reset blank line. -/
def preamble_bytes (has_feature_done : Bool)
    (has_reset has_reset_from : Option (List Nat)) : List Nat :=
  feature_bytes has_feature_done
  ++ (match has_reset with
      | some reset_ref => strBytes "reset " ++ reset_ref ++ [10]
      | none => [])
  ++ from_bytes has_reset_from
  ++ (if has_reset.isSome then [10] else [])

/-- The commit/blob block of `write_to_stream`, for stating decompositions.
`data_size` is the captured token field of the surrounding object. -/
def object_bytes (data_size : List Nat) : StructuredObjectType → List Nat
  | .Commit commit_obj =>
    strBytes "commit " ++ commit_obj.commit_ref ++ [10]
    ++ strBytes "mark :" ++ natToBytes commit_obj.mark ++ [10]
    ++ strBytes "original-oid " ++ commit_obj.original_oid ++ [10]
    ++ (match commit_obj.author with
        | some author => write_person_info author true
        | none => [])
    ++ write_person_info commit_obj.committer false
    ++ strBytes "data " ++ natToBytes commit_obj.commit_message.length ++ [10]
    ++ commit_obj.commit_message ++ [10]
    ++ merge_lines commit_obj.merges
    ++ fileop_lines commit_obj.fileops
    ++ [10]
  | .Blob blob_obj =>
    strBytes "blob\n"
    ++ strBytes "mark :" ++ natToBytes blob_obj.mark ++ [10]
    ++ strBytes "original-oid " ++ blob_obj.original_oid ++ [10]
    ++ strBytes "data " ++ data_size ++ [10]
    ++ blob_obj.data ++ [10]

/-- The header lines of a commit block (everything before the `data` line),
for stating decompositions of `write_to_stream`. -/
def commit_header_bytes (commit_obj : CommitObjectOwned) : List Nat :=
  strBytes "commit " ++ commit_obj.commit_ref ++ [10]
  ++ strBytes "mark :" ++ natToBytes commit_obj.mark ++ [10]
  ++ strBytes "original-oid " ++ commit_obj.original_oid ++ [10]
  ++ (match commit_obj.author with
      | some author => write_person_info author true
      | none => [])
  ++ write_person_info commit_obj.committer false

/-! ## The ordered pipeline driver (parse_git_filter_export_via_channel)

The driver spawns `n` parser threads; a reader thread tokenizes the stream,
tags each raw record with a strictly increasing `counter`, and sends record
`counter` to worker `counter % n`.  Each worker maps the builder
(`parse_into_structured_object`, whose source file is not part of the
provided sources, so it stays an abstract function `build` here) over its
inbound queue and forwards `(counter, result)` to one shared mpsc channel.
The calling thread then runs the reassembly loop over that channel.

The shared channel is modelled by the list `recv` of messages in the order
the reassembly loop receives them.  Per-sender FIFO order of the mpsc
channel means `recv` restricted to any one worker's messages equals that
worker's send sequence; which interleaving occurs depends on scheduling, so
the theorems quantify over every `recv` satisfying `validRecv`. -/

/-- Decidable equality for `Except`, needed to count channel messages. -/
instance exceptDecEq {ε α : Type} [DecidableEq ε] [DecidableEq α] :
    DecidableEq (Except ε α) := fun x y =>
  match x, y with
  | .error a, .error b =>
    if h : a = b then .isTrue (by rw [h]) else .isFalse (fun hc => by cases hc; exact h rfl)
  | .ok a, .ok b =>
    if h : a = b then .isTrue (by rw [h]) else .isFalse (fun hc => by cases hc; exact h rfl)
  | .error _, .ok _ => .isFalse (fun hc => by cases hc)
  | .ok _, .error _ => .isFalse (fun hc => by cases hc)

section Driver

variable {Raw Obj PErr CErr S : Type}

/-- The message sequence worker `j` sends on the shared channel: the raw
records whose sequence index is `j` modulo the thread count, in stream
order (the reader dispatches record `counter` to worker
`counter % n_parsing_threads`, mod.rs lines 136-147), each paired with the
builder's result (mod.rs lines 108-118). -/
def dispatched (build : Raw → Except PErr Obj) (rs : List Raw) (n j : Nat) :
    List (Nat × Except PErr Obj) :=
  (rs.enum.filter (fun p => p.1 % n = j)).map (fun p => (p.1, build p.2))

/-- The list `recv` is a possible receive order of the shared mpsc channel: its
restriction to each worker's messages is exactly that worker's send
sequence. -/
def validRecv (build : Raw → Except PErr Obj) (rs : List Raw) (n : Nat)
    (recv : List (Nat × Except PErr Obj)) : Prop :=
  ∀ j < n, recv.filter (fun p => p.1 % n = j) = dispatched build rs n j

instance validRecv_decidable [DecidableEq Obj] [DecidableEq PErr]
    (build : Raw → Except PErr Obj) (rs : List Raw) (n : Nat)
    (recv : List (Nat × Except PErr Obj)) : Decidable (validRecv build rs n recv) :=
  inferInstanceAs (Decidable (∀ j, j < n →
    recv.filter (fun p => p.1 % n = j) = dispatched build rs n j))

/-- Push on the `BinaryHeap<Reverse<WaitObj>>`.  `WaitObj`'s `Ord` compares only the
sequence index (mod.rs lines 35-39) and `Reverse` turns pop into
extract-min, so the heap is modelled as a list kept sorted by ascending
index; pop is taking the head. -/
def heapPush : List (Nat × Obj) → (Nat × Obj) → List (Nat × Obj)
  | [], x => [x]
  | y :: rest, x => if x.1 ≤ y.1 then x :: y :: rest else y :: heapPush rest x

/-- The inner `while let Some(wait_obj) = wait_heap.pop()` loop of the
reassembly stage (mod.rs lines 174-184): keep popping while the minimum
index equals `expected`, invoking the callback and incrementing `expected`;
otherwise push the element back and stop.  A callback error propagates out
(the `?` on line 178).  Returns (delivered-so-far, expected, heap, result);
the delivered list records every object passed to the callback. -/
def drainLoop (cb : S → Obj → Except CErr S) :
    List (Nat × Obj) → Nat → S → List Obj →
    List Obj × Nat × List (Nat × Obj) × Except (PErr ⊕ CErr) S := fun heap expected s delivered =>
  match heap with
  | [] => (delivered, expected, [], Except.ok s)
  | (i, o) :: rest =>
    if i = expected then
      match cb s o with
      | Except.error e => (delivered ++ [o], expected, rest, Except.error (Sum.inr e))
      | Except.ok s' => drainLoop cb rest (expected + 1) s' (delivered ++ [o])
    else
      (delivered, expected, (i, o) :: rest, Except.ok s)

/-- The reassembly loop of `parse_git_filter_export_via_channel`
(mod.rs lines 156-190) over the messages received from the shared channel:
`received.1?` aborts on a builder error as soon as that message is
received; an in-order object is delivered immediately, an out-of-order one
is pushed onto the wait heap; after every message the heap is drained.
Returns the objects passed to the callback together with the result. -/
def recvLoop (cb : S → Obj → Except CErr S) :
    List (Nat × Except PErr Obj) → Nat → List (Nat × Obj) → S → List Obj →
    List Obj × Except (PErr ⊕ CErr) S
  | [], _, _, s, delivered => (delivered, Except.ok s)
  | (idx, res) :: rest, expected, heap, s, delivered =>
    match res with
    | Except.error pe => (delivered, Except.error (Sum.inl pe))
    | Except.ok obj =>
      if idx = expected then
        match cb s obj with
        | Except.error ce => (delivered ++ [obj], Except.error (Sum.inr ce))
        | Except.ok s' =>
          match drainLoop cb heap (expected + 1) s' (delivered ++ [obj]) with
          | (d', e', h', Except.ok s'') => recvLoop cb rest e' h' s'' d'
          | (d', _, _, Except.error err) => (d', Except.error err)
      else
        match drainLoop cb (heapPush heap (idx, obj)) expected s delivered with
        | (d', e', h', Except.ok s'') => recvLoop cb rest e' h' s'' d'
        | (d', _, _, Except.error err) => (d', Except.error err)

/-- The driver `parse_git_filter_export_via_channel` (mod.rs lines 75-196),
observed at the reassembly stage: run the reassembly loop from
`expected = 0` with an empty wait heap over the received message sequence.
The pair is (objects passed to the callback, in order and result returned;
a builder error surfaces as `Sum.inl`, a callback error as `Sum.inr`). -/
def parse_git_filter_export_via_channel (cb : S → Obj → Except CErr S)
    (recv : List (Nat × Except PErr Obj)) (s₀ : S) :
    List Obj × Except (PErr ⊕ CErr) S :=
  recvLoop cb recv 0 [] s₀ []

/-- The sequential delivery oracle: what the run looks like when objects
`g e, g (e+1), ...` (m of them) are handed to the callback in index order,
stopping at the first callback error.  The ordered pipeline driver is proved
to coincide with this oracle. -/
def oracleRun (cb : S → Obj → Except CErr S) (g : Nat → Obj) :
    Nat → Nat → S → List Obj → List Obj × Except (PErr ⊕ CErr) S
  | _, 0, s, d => (d, Except.ok s)
  | e, m + 1, s, d =>
    match cb s (g e) with
    | Except.error ce => (d ++ [g e], Except.error (Sum.inr ce))
    | Except.ok s' => oracleRun cb g (e + 1) m s' (d ++ [g e])

/-- The sequential oracle with builder results: process indices
`e, e+1, ...` in order; a builder error at an index aborts there, otherwise
the object goes to the callback, whose error also aborts. -/
def seqOracle (b : Nat → Except PErr Obj) (cb : S → Obj → Except CErr S) :
    Nat → Nat → S → List Obj → List Obj × Except (PErr ⊕ CErr) S
  | _, 0, s, d => (d, Except.ok s)
  | e, m + 1, s, d =>
    match b e with
    | Except.error pe => (d, Except.error (Sum.inl pe))
    | Except.ok o =>
      match cb s o with
      | Except.error ce => (d ++ [o], Except.error (Sum.inr ce))
      | Except.ok s' => seqOracle b cb (e + 1) m s' (d ++ [o])

/-- Model of the sequential entry point `parse_git_filter_export`
(mod.rs lines 47-60): build each raw record and hand the result to the
callback, converting a builder error into the callback's error type.  The
enclosing tokenizer loop `parse_git_filter_export_with_callback` lives in
`unstructured_parse.rs`, which is not among the provided sources; modelled
from the spec: it invokes the closure once per raw record in stream order
and the closure's error aborts the run. -/
def parse_git_filter_export (build : Raw → Except PErr Obj)
    (cb : S → Obj → Except CErr S) :
    List Raw → S → List Obj → List Obj × Except (PErr ⊕ CErr) S
  | [], s, d => (d, Except.ok s)
  | r :: rest, s, d =>
    match build r with
    | Except.error pe => (d, Except.error (Sum.inl pe))
    | Except.ok o =>
      match cb s o with
      | Except.error ce => (d ++ [o], Except.error (Sum.inr ce))
      | Except.ok s' => parse_git_filter_export build cb rest s' (d ++ [o])

/-- Length of the maximal prefix of a list of indices that reads
`e, e+1, e+2, ...`: how many elements a heap drain starting at `expected = e`
will pop and deliver. -/
def consecLen : List Nat → Nat → Nat
  | [], _ => 0
  | j :: rest, e => if j = e then consecLen rest (e + 1) + 1 else 0

end Driver

/-! ## Thread-count resolution and worker dispatch -/

/-- Resolution of `n_parsing_threads` (mod.rs lines 82-100): `Some n` is used
as given; `None` computes `cpu_count as isize - 2` and falls back to 1 when
that is not positive. -/
def resolve_n_parsing_threads (n_parsing_threads : Option Nat) (cpu_count : Nat) : Nat :=
  match n_parsing_threads with
  | some n => n
  | none =>
    let spawn_parser_threads : Int := (cpu_count : Int) - 2
    if spawn_parser_threads ≤ 0 then 1 else spawn_parser_threads.toNat

/-- The vector of spawned parser threads (mod.rs lines 103-120): one entry
per `0..n_parsing_threads` (each entry stands for that worker's sender). -/
def spawned_threads (n_parsing_threads : Nat) : List Nat :=
  List.range n_parsing_threads

/-- The reader's worker lookup (mod.rs lines 139-140):
`thread_index = counter % n_parsing_threads` indexes `spawned_threads`.
`none` models the panic of an out-of-bounds index (for `n = 0` the remainder
itself already panics in Rust; the lookup on the empty vector is `none`
here). -/
def dispatch_lookup (n_parsing_threads counter : Nat) : Option Nat :=
  (spawned_threads n_parsing_threads).get? (counter % n_parsing_threads)

/-! ## Spec-modelled raw tokenizer / structured builder for blob blocks

The Raw Tokenizer (`unstructured_parse.rs`) and Structured Builder
(`structured_parse.rs`) are not among the provided sources; the definitions
in this section are modelled from the specification (its sections on the Raw
Tokenizer, the Structured Builder and the blob block layout) and exist to
settle the round-trip and merge-ordering claims. -/

/-- Modelled from the spec: consume one newline-terminated line; returns the
line without its newline and the remaining bytes.  Fails at end of stream
before a newline is seen. -/
def takeLine : List Nat → Option (List Nat × List Nat)
  | [] => none
  | b :: rest =>
    if b = 10 then some ([], rest)
    else
      match takeLine rest with
      | some (line, r) => some (b :: line, r)
      | none => none

/-- Modelled from the spec: strip an expected fixed token from the front of
the byte stream, failing on any mismatch. -/
def dropToken : List Nat → List Nat → Option (List Nat)
  | [], bs => some bs
  | _ :: _, [] => none
  | t :: ts, b :: bs => if b = t then dropToken ts bs else none

/-- Modelled from the spec: accumulate decimal digits, failing on a
non-digit byte (a `data` declaration without a valid length token is a
`ParseError`). -/
def parseDecimalAux : List Nat → Nat → Option Nat
  | [], acc => some acc
  | b :: rest, acc =>
    if 48 ≤ b ∧ b ≤ 57 then parseDecimalAux rest (acc * 10 + (b - 48)) else none

/-- Modelled from the spec: parse a non-empty all-digit token into its
value. -/
def parseDecimal (bs : List Nat) : Option Nat :=
  match bs with
  | [] => none
  | _ :: _ => parseDecimalAux bs 0

/-- Modelled from the spec: the composition tokenize-then-build on one blob
block.  The tokenizer consumes the `blob`, `mark`, `original-oid` and `data`
lines, captures the length token verbatim, reads exactly that many raw
payload bytes (binary-safe, embedded newlines included) and the trailing
newline; the builder packages the fields into a `StructuredExportObject`
with no feature/reset markers and the captured token as `data_size`. -/
def tokenize_build_blob (bs : List Nat) : Option StructuredExportObject :=
  match dropToken (strBytes "blob\n") bs with
  | none => none
  | some bs =>
    match dropToken (strBytes "mark :") bs with
    | none => none
    | some bs =>
      match takeLine bs with
      | none => none
      | some (markDigits, bs) =>
        match parseDecimal markDigits with
        | none => none
        | some mark =>
          match dropToken (strBytes "original-oid ") bs with
          | none => none
          | some bs =>
            match takeLine bs with
            | none => none
            | some (oid, bs) =>
              match dropToken (strBytes "data ") bs with
              | none => none
              | some bs =>
                match takeLine bs with
                | none => none
                | some (lenTok, bs) =>
                  match parseDecimal lenTok with
                  | none => none
                  | some len =>
                    if bs.length < len then none
                    else
                      match bs.drop len with
                      | [10] => some ⟨false, none, none, lenTok, .Blob ⟨mark, oid, bs.take len⟩⟩
                      | _ => none

/-- The byte layout of one blob block of the export stream, as described by
the spec's blob-block section: `blob` line, `mark :<mark>` line,
`original-oid <oid>` line, `data <len>` line with the length token, the raw
payload bytes, and a trailing newline. -/
def blobBlockBytes (mark : Nat) (oid lenTok payload : List Nat) : List Nat :=
  strBytes "blob\n"
  ++ strBytes "mark :" ++ natToBytes mark ++ [10]
  ++ strBytes "original-oid " ++ oid ++ [10]
  ++ strBytes "data " ++ lenTok ++ [10]
  ++ payload ++ [10]

/-- Modelled from the spec: the Structured Builder parses one `from :mark`
or `merge :mark` line into the referenced mark. -/
def parse_merge_header (bs : List Nat) : Option Nat :=
  match dropToken (strBytes "from :") bs with
  | some digits => parseDecimal digits
  | none =>
    match dropToken (strBytes "merge :") bs with
    | some digits => parseDecimal digits
    | none => none

/-- Modelled from the spec: the Structured Builder collects the `from`/
`merge` lines of a commit record into the `merges` sequence, preserving
their order. -/
def build_merges (lines : List (List Nat)) : List Nat :=
  lines.filterMap parse_merge_header

/-! ## Helper lemmas: decimal rendering and parsing -/

theorem natToBytesAux_congr : ∀ (f₁ f₂ n : Nat), n ≤ f₁ → n ≤ f₂ →
    natToBytesAux f₁ n = natToBytesAux f₂ n := by
  intro f₁
  induction f₁ with
  | zero =>
    intro f₂ n h1 _
    have hn : n = 0 := by omega
    subst hn
    cases f₂ <;> simp [natToBytesAux]
  | succ f ih =>
    intro f₂ n h1 h2
    cases f₂ with
    | zero =>
      have hn : n = 0 := by omega
      subst hn
      simp [natToBytesAux]
    | succ f' =>
      simp only [natToBytesAux]
      by_cases hlt : n < 10
      · rw [if_pos hlt, if_pos hlt]
      · rw [if_neg hlt, if_neg hlt, ih f' (n / 10) (by omega) (by omega)]

theorem natToBytes_eq (n : Nat) :
    natToBytes n = if n < 10 then [48 + n] else natToBytes (n / 10) ++ [48 + n % 10] := by
  cases n with
  | zero => simp [natToBytes, natToBytesAux]
  | succ m =>
    show natToBytesAux (m + 1) (m + 1) = _
    by_cases hlt : m + 1 < 10
    · simp only [natToBytesAux, if_pos hlt]
    · simp only [natToBytesAux, if_neg hlt, natToBytes]
      rw [natToBytesAux_congr m ((m + 1) / 10) ((m + 1) / 10) (by omega) (by omega)]

theorem natToBytes_digits (n : Nat) : ∀ b ∈ natToBytes n, 48 ≤ b ∧ b ≤ 57 := by
  induction n using Nat.strong_induction_on with
  | _ n ih =>
    rw [natToBytes_eq]
    by_cases h : n < 10
    · rw [if_pos h]
      intro b hb
      simp only [List.mem_singleton] at hb
      omega
    · rw [if_neg h]
      intro b hb
      rcases List.mem_append.mp hb with hb | hb
      · exact ih (n / 10) (Nat.div_lt_self (by omega) (by decide)) b hb
      · simp only [List.mem_singleton] at hb
        have : n % 10 < 10 := Nat.mod_lt _ (by decide)
        omega

theorem natToBytes_ne_nil (n : Nat) : natToBytes n ≠ [] := by
  rw [natToBytes_eq]
  by_cases h : n < 10
  · rw [if_pos h]; simp
  · rw [if_neg h]; simp

theorem parseDecimalAux_append : ∀ (xs ys : List Nat) (acc : Nat),
    parseDecimalAux (xs ++ ys) acc =
      match parseDecimalAux xs acc with
      | some a => parseDecimalAux ys a
      | none => none := by
  intro xs
  induction xs with
  | nil => intro ys acc; simp [parseDecimalAux]
  | cons b rest ih =>
    intro ys acc
    by_cases h : 48 ≤ b ∧ b ≤ 57
    · simp only [List.cons_append, parseDecimalAux, if_pos h]
      exact ih ys _
    · simp only [List.cons_append, parseDecimalAux, if_neg h]

theorem parseDecimalAux_natToBytes (n : Nat) : ∀ acc : Nat,
    parseDecimalAux (natToBytes n) acc = some (acc * 10 ^ (natToBytes n).length + n) := by
  induction n using Nat.strong_induction_on with
  | _ n ih =>
    intro acc
    rw [natToBytes_eq]
    by_cases h : n < 10
    · rw [if_pos h]
      simp only [parseDecimalAux, if_pos (show 48 ≤ 48 + n ∧ 48 + n ≤ 57 by omega)]
      simp only [List.length_singleton, pow_one]
      congr 1
      omega
    · rw [if_neg h, parseDecimalAux_append]
      rw [ih (n / 10) (Nat.div_lt_self (by omega) (by decide)) acc]
      have hd : n % 10 < 10 := Nat.mod_lt _ (by decide)
      simp only [parseDecimalAux,
        if_pos (show 48 ≤ 48 + n % 10 ∧ 48 + n % 10 ≤ 57 by omega)]
      simp only [List.length_append, List.length_singleton]
      congr 1
      have h48 : 48 + n % 10 - 48 = n % 10 := by omega
      have hdm : n / 10 * 10 + n % 10 = n := by omega
      rw [h48, pow_succ]
      calc (acc * 10 ^ (natToBytes (n / 10)).length + n / 10) * 10 + n % 10
          = acc * (10 ^ (natToBytes (n / 10)).length * 10) + (n / 10 * 10 + n % 10) := by ring
        _ = acc * (10 ^ (natToBytes (n / 10)).length * 10) + n := by rw [hdm]

theorem parseDecimal_natToBytes (n : Nat) : parseDecimal (natToBytes n) = some n := by
  have h := parseDecimalAux_natToBytes n 0
  have hne := natToBytes_ne_nil n
  cases hb : natToBytes n with
  | nil => exact absurd hb hne
  | cons b rest =>
    rw [hb] at h
    simp only [parseDecimal]
    rw [h]
    simp

theorem parseDecimalAux_digits : ∀ (bs : List Nat) (acc v : Nat),
    parseDecimalAux bs acc = some v → ∀ b ∈ bs, 48 ≤ b ∧ b ≤ 57 := by
  intro bs
  induction bs with
  | nil => intro acc v _ b hb; simp at hb
  | cons c rest ih =>
    intro acc v hp b hb
    by_cases h : 48 ≤ c ∧ c ≤ 57
    · simp only [parseDecimalAux, if_pos h] at hp
      rcases List.mem_cons.mp hb with rfl | hb
      · exact h
      · exact ih _ v hp b hb
    · simp only [parseDecimalAux, if_neg h] at hp
      exact absurd hp (by simp)

theorem parseDecimal_no_newline (bs : List Nat) (v : Nat)
    (h : parseDecimal bs = some v) : 10 ∉ bs := by
  intro hmem
  cases bs with
  | nil => simp at hmem
  | cons b rest =>
    simp only [parseDecimal] at h
    have := parseDecimalAux_digits (b :: rest) 0 v h 10 hmem
    omega

theorem dropToken_append : ∀ (ts xs : List Nat), dropToken ts (ts ++ xs) = some xs := by
  intro ts
  induction ts with
  | nil => intro xs; rfl
  | cons t rest ih =>
    intro xs
    simp only [List.cons_append, dropToken, if_pos rfl]
    exact ih xs

theorem takeLine_append (line : List Nat) (h10 : 10 ∉ line) :
    ∀ rest : List Nat, takeLine (line ++ 10 :: rest) = some (line, rest) := by
  induction line with
  | nil => intro rest; simp [takeLine]
  | cons b bs ih =>
    intro rest
    have hb : b ≠ 10 := fun hc => h10 (by simp [hc])
    have h10' : 10 ∉ bs := fun hm => h10 (List.mem_cons_of_mem _ hm)
    simp only [List.cons_append, takeLine, if_neg hb, List.append_eq]
    rw [ih h10' rest]

/-! ## Structural decomposition of the serializer -/

theorem write_to_stream_decomp (fd : Bool) (hr hrf : Option (List Nat))
    (ds : List Nat) (ot : StructuredObjectType) :
    write_to_stream ⟨fd, hr, hrf, ds, ot⟩ =
      preamble_bytes fd hr hrf ++ object_bytes ds ot := by
  cases ot <;>
    simp [write_to_stream, preamble_bytes, feature_bytes, from_bytes, object_bytes,
      List.append_assoc]

/-- Claim C5: for every Commit object, `write_to_stream` emits `data <len>`
with `<len>` the recomputed byte length of the commit message (the captured
`data_size` token has no effect on commit output), while for every Blob
object it emits `data <len>` with the originally captured `data_size` token
verbatim, never recomputing the payload length. -/
theorem claim_C5_data_length_policy :
    (∀ (fd : Bool) (hr hrf : Option (List Nat)) (ds ds' : List Nat) (c : CommitObjectOwned),
      write_to_stream ⟨fd, hr, hrf, ds, .Commit c⟩ =
        write_to_stream ⟨fd, hr, hrf, ds', .Commit c⟩)
    ∧ (∀ (fd : Bool) (hr hrf : Option (List Nat)) (ds : List Nat) (c : CommitObjectOwned),
      write_to_stream ⟨fd, hr, hrf, ds, .Commit c⟩ =
        preamble_bytes fd hr hrf ++ commit_header_bytes c
        ++ strBytes "data " ++ natToBytes c.commit_message.length ++ [10]
        ++ c.commit_message ++ [10]
        ++ merge_lines c.merges ++ fileop_lines c.fileops ++ [10])
    ∧ (∀ (fd : Bool) (hr hrf : Option (List Nat)) (ds : List Nat) (b : BlobObjectOwned),
      write_to_stream ⟨fd, hr, hrf, ds, .Blob b⟩ =
        preamble_bytes fd hr hrf
        ++ strBytes "blob\n" ++ strBytes "mark :" ++ natToBytes b.mark ++ [10]
        ++ strBytes "original-oid " ++ b.original_oid ++ [10]
        ++ strBytes "data " ++ ds ++ [10]
        ++ b.data ++ [10]) := by
  refine ⟨fun fd hr hrf ds ds' c => ?_, fun fd hr hrf ds c => ?_, fun fd hr hrf ds b => ?_⟩
  · rw [write_to_stream_decomp, write_to_stream_decomp]
    simp only [object_bytes]
  · rw [write_to_stream_decomp]
    simp [object_bytes, commit_header_bytes, List.append_assoc]
  · rw [write_to_stream_decomp]
    simp [object_bytes, List.append_assoc]

/-- Claim C7 counterexample: an object with `has_reset = none` but
`has_reset_from = some "refs/x"` still makes `write_to_stream` emit the
`from refs/x` line of the reset block (mod.rs lines 231-235 test
`has_reset_from` independently of `has_reset`), contradicting the claim that
no reset-block `from` line appears when `has_reset` is `none`. -/
theorem claim_C7_counterexample :
    write_to_stream ⟨false, none, some (strBytes "refs/x"), [], .Blob ⟨1, [], []⟩⟩ =
      strBytes "from refs/x\n"
        ++ write_to_stream ⟨false, none, none, [], .Blob ⟨1, [], []⟩⟩
    ∧ (⟨false, none, some (strBytes "refs/x"), [], .Blob ⟨1, [], []⟩⟩
        : StructuredExportObject).has_reset = none := by
  constructor
  · decide
  · rfl

/-- Claim C7 amended: `write_to_stream` emits the `reset <ref>` line and the
closing blank line of the reset block only when `has_reset` is `some`, but
the `from <ref-or-mark>` line is controlled solely by `has_reset_from`,
independently of `has_reset`; in particular, only when both fields are
`none` does no part of the reset block appear. -/
theorem claim_C7_amended :
    (∀ (fd : Bool) (rt : List Nat) (rf : Option (List Nat)) (ds : List Nat)
        (ot : StructuredObjectType),
      write_to_stream ⟨fd, some rt, rf, ds, ot⟩ =
        feature_bytes fd ++ strBytes "reset " ++ rt ++ [10]
        ++ from_bytes rf ++ [10] ++ object_bytes ds ot)
    ∧ (∀ (fd : Bool) (rf : Option (List Nat)) (ds : List Nat)
        (ot : StructuredObjectType),
      write_to_stream ⟨fd, none, rf, ds, ot⟩ =
        feature_bytes fd ++ from_bytes rf ++ object_bytes ds ot) := by
  constructor
  · intro fd rt rf ds ot
    rw [write_to_stream_decomp]
    simp [preamble_bytes, List.append_assoc]
  · intro fd rf ds ot
    rw [write_to_stream_decomp]
    simp [preamble_bytes, List.append_assoc]

/-- Claim C8: building a commit record whose parent lines are
`from :P1`, `merge :P2`, `merge :P3` yields `merges = [P1, P2, P3]` in that
order, and serializing a commit with `merges = [P1, P2, P3]` emits exactly
`from :P1`, `merge :P2`, `merge :P3` in that order (the first entry as the
`from` relation, every later entry as a `merge` relation). -/
theorem claim_C8_merge_ordering (p1 p2 p3 : Nat) :
    build_merges [strBytes "from :" ++ natToBytes p1,
        strBytes "merge :" ++ natToBytes p2,
        strBytes "merge :" ++ natToBytes p3] = [p1, p2, p3]
    ∧ (∀ (fd : Bool) (hr hrf : Option (List Nat)) (ds cr : List Nat) (mk : Nat)
        (oid : List Nat) (au : Option CommitPersonOwned) (com : CommitPersonOwned)
        (msg : List Nat) (fops : List FileOpsOwned),
      write_to_stream ⟨fd, hr, hrf, ds, .Commit ⟨cr, mk, oid, au, com, msg, [p1, p2, p3], fops⟩⟩ =
        preamble_bytes fd hr hrf
        ++ commit_header_bytes ⟨cr, mk, oid, au, com, msg, [p1, p2, p3], fops⟩
        ++ strBytes "data " ++ natToBytes msg.length ++ [10] ++ msg ++ [10]
        ++ strBytes "from :" ++ natToBytes p1 ++ [10]
        ++ strBytes "merge :" ++ natToBytes p2 ++ [10]
        ++ strBytes "merge :" ++ natToBytes p3 ++ [10]
        ++ fileop_lines fops ++ [10]) := by
  have hfrom1 : parse_merge_header (strBytes "from :" ++ natToBytes p1) = some p1 := by
    simp only [parse_merge_header, dropToken_append, parseDecimal_natToBytes]
  have hmerge2 : parse_merge_header (strBytes "merge :" ++ natToBytes p2) = some p2 := by
    have hx : dropToken (strBytes "from :") (strBytes "merge :" ++ natToBytes p2) = none := rfl
    simp only [parse_merge_header, hx, dropToken_append, parseDecimal_natToBytes]
  have hmerge3 : parse_merge_header (strBytes "merge :" ++ natToBytes p3) = some p3 := by
    have hx : dropToken (strBytes "from :") (strBytes "merge :" ++ natToBytes p3) = none := rfl
    simp only [parse_merge_header, hx, dropToken_append, parseDecimal_natToBytes]
  constructor
  · simp [build_merges, List.filterMap_cons, hfrom1, hmerge2, hmerge3]
  · intro fd hr hrf ds cr mk oid au com msg fops
    rw [write_to_stream_decomp]
    simp [object_bytes, commit_header_bytes, merge_lines, List.append_assoc]

/-- Claim C9: with `thread_count = None` the driver resolves the number of
parsing worker threads to `max 1 (available_parallelism - 2)`. -/
theorem claim_C9_thread_count (cpu_count : Nat) :
    resolve_n_parsing_threads none cpu_count = max 1 (cpu_count - 2) := by
  simp only [resolve_n_parsing_threads]
  rcases le_or_lt cpu_count 2 with hc | hc
  · have h : (cpu_count : Int) - 2 ≤ 0 := by omega
    rw [if_pos h]
    have h2 : cpu_count - 2 = 0 := by omega
    rw [h2]
    simp
  · have h : ¬ ((cpu_count : Int) - 2 ≤ 0) := by omega
    rw [if_neg h]
    have h2 : ((cpu_count : Int) - 2).toNat = cpu_count - 2 := by omega
    rw [h2, Nat.max_eq_right (by omega)]

/-- Claim C10: for every `thread_count = Some n` with `n ≥ 1` the reader's
worker lookup `spawned_threads[counter % n]` is always in bounds, while for
`Some 0` the lookup fails (the Rust code panics on the remainder by zero and
on indexing the empty worker vector; the failure is modelled by `none`). -/
theorem claim_C10_dispatch_safety :
    (∀ n counter : Nat, 1 ≤ n → (dispatch_lookup n counter).isSome = true)
    ∧ (∀ counter : Nat, dispatch_lookup 0 counter = none) := by
  constructor
  · intro n counter hn
    have h : counter % n < n := Nat.mod_lt _ (by omega)
    simp [dispatch_lookup, spawned_threads, List.getElem?_range h]
  · intro counter
    rfl

/-- Witness for claim C10 at `n = 3`, `counter = 7` (and `counter = 4` for
the `n = 0` half). -/
theorem claim_C10_dispatch_safety_witness :
    (1 ≤ 3 ∧ (dispatch_lookup 3 7).isSome = true) ∧ dispatch_lookup 0 4 = none :=
  ⟨⟨by decide, claim_C10_dispatch_safety.1 3 7 (by decide)⟩,
    claim_C10_dispatch_safety.2 4⟩

/-- Claim C6: for a blob block whose declared length token evaluates to the
payload's actual byte length, tokenize-then-build yields the structured blob
object with the token captured verbatim, and serializing that object
reproduces the original block byte-for-byte. -/
theorem claim_C6_blob_roundtrip (mark : Nat) (oid lenTok payload : List Nat)
    (hoid : 10 ∉ oid) (htok : parseDecimal lenTok = some payload.length) :
    tokenize_build_blob (blobBlockBytes mark oid lenTok payload) =
      some ⟨false, none, none, lenTok, .Blob ⟨mark, oid, payload⟩⟩
    ∧ write_to_stream ⟨false, none, none, lenTok, .Blob ⟨mark, oid, payload⟩⟩ =
      blobBlockBytes mark oid lenTok payload := by
  have h10mark : (10 : Nat) ∉ natToBytes mark := fun hm => by
    have := natToBytes_digits mark 10 hm
    omega
  have h10tok : (10 : Nat) ∉ lenTok := parseDecimal_no_newline lenTok payload.length htok
  constructor
  · simp only [tokenize_build_blob, blobBlockBytes, List.append_assoc, List.singleton_append,
      List.cons_append, List.nil_append, dropToken_append,
      takeLine_append (natToBytes mark) h10mark,
      takeLine_append oid hoid, takeLine_append lenTok h10tok,
      parseDecimal_natToBytes, htok]
    have hlen : ¬ ((payload ++ [10]).length < payload.length) := by simp
    rw [if_neg hlen, List.drop_left, List.take_left]
  · simp [write_to_stream, blobBlockBytes, List.append_assoc]

/-- Witness for claim C6: the block with mark 3, oid `abc`, token `3` and the
binary payload `[0, 10, 65]` (which itself contains a newline byte). -/
theorem claim_C6_blob_roundtrip_witness :
    ((10 : Nat) ∉ strBytes "abc" ∧ parseDecimal (natToBytes 3) = some [0, 10, 65].length)
    ∧ (tokenize_build_blob (blobBlockBytes 3 (strBytes "abc") (natToBytes 3) [0, 10, 65]) =
        some ⟨false, none, none, natToBytes 3, .Blob ⟨3, strBytes "abc", [0, 10, 65]⟩⟩
      ∧ write_to_stream ⟨false, none, none, natToBytes 3, .Blob ⟨3, strBytes "abc", [0, 10, 65]⟩⟩ =
        blobBlockBytes 3 (strBytes "abc") (natToBytes 3) [0, 10, 65]) :=
  ⟨⟨by decide, by decide⟩,
    claim_C6_blob_roundtrip 3 (strBytes "abc") (natToBytes 3) [0, 10, 65]
      (by decide) (by decide)⟩

/-! ## Helper lemmas: the wait heap -/

section DriverLemmas

variable {Obj PErr CErr S : Type}

theorem heapPush_length (h : List (Nat × Obj)) (x : Nat × Obj) :
    (heapPush h x).length = h.length + 1 := by
  induction h with
  | nil => rfl
  | cons y rest ih =>
    simp only [heapPush]
    by_cases hc : x.1 ≤ y.1
    · rw [if_pos hc]
      simp
    · rw [if_neg hc]
      simp [ih]

theorem heapPush_map_fst_perm (h : List (Nat × Obj)) (x : Nat × Obj) :
    List.Perm ((heapPush h x).map Prod.fst) (x.1 :: h.map Prod.fst) := by
  induction h with
  | nil => simp [heapPush]
  | cons y rest ih =>
    simp only [heapPush]
    by_cases hc : x.1 ≤ y.1
    · rw [if_pos hc]
      exact List.Perm.refl _
    · rw [if_neg hc]
      simp only [List.map_cons]
      exact (ih.cons y.1).trans (List.Perm.swap x.1 y.1 _)

theorem heapPush_mem (h : List (Nat × Obj)) (x p : Nat × Obj) :
    p ∈ heapPush h x ↔ p = x ∨ p ∈ h := by
  induction h with
  | nil => simp [heapPush]
  | cons y rest ih =>
    simp only [heapPush]
    by_cases hc : x.1 ≤ y.1
    · rw [if_pos hc]
      simp only [List.mem_cons]
    · rw [if_neg hc]
      simp only [List.mem_cons, ih]
      tauto

theorem heapPush_sorted (h : List (Nat × Obj)) (x : Nat × Obj)
    (hs : List.Sorted (· < ·) (h.map Prod.fst)) (hx : x.1 ∉ h.map Prod.fst) :
    List.Sorted (· < ·) ((heapPush h x).map Prod.fst) := by
  induction h with
  | nil => simp [heapPush]
  | cons y rest ih =>
    simp only [heapPush]
    by_cases hc : x.1 ≤ y.1
    · rw [if_pos hc]
      simp only [List.map_cons, List.sorted_cons] at hs ⊢
      have hxy : x.1 < y.1 :=
        lt_of_le_of_ne hc (fun he => hx (by simp [he]))
      refine ⟨?_, hs⟩
      intro b hb
      rcases List.mem_cons.mp hb with rfl | hb
      · exact hxy
      · exact lt_trans hxy (hs.1 b hb)
    · rw [if_neg hc]
      simp only [List.map_cons, List.sorted_cons] at hs ⊢
      have hyx : y.1 < x.1 := by omega
      have hx' : x.1 ∉ rest.map Prod.fst := fun hm => hx (by simp [hm])
      refine ⟨?_, ih hs.2 hx'⟩
      intro b hb
      have hb' := (heapPush_map_fst_perm rest x).mem_iff.mp hb
      rcases List.mem_cons.mp hb' with rfl | hb''
      · exact hyx
      · exact hs.1 b hb''

/-! ## Helper lemmas: the consecutive prefix of the heap -/

theorem consecLen_le_length : ∀ (l : List Nat) (e : Nat), consecLen l e ≤ l.length := by
  intro l
  induction l with
  | nil => intro e; simp [consecLen]
  | cons j rest ih =>
    intro e
    simp only [consecLen]
    by_cases hj : j = e
    · rw [if_pos hj]
      simpa using ih (e + 1)
    · rw [if_neg hj]
      simp

theorem consec_take_map : ∀ (h : List (Nat × Obj)) (e : Nat),
    (h.take (consecLen (h.map Prod.fst) e)).map Prod.fst =
      List.range' e (consecLen (h.map Prod.fst) e) := by
  intro h
  induction h with
  | nil => intro e; simp [consecLen]
  | cons y t ih =>
    intro e
    simp only [List.map_cons, consecLen]
    by_cases hy : y.1 = e
    · rw [if_pos hy, List.range'_succ]
      simp only [List.take_succ_cons, List.map_cons, ih (e + 1), hy]
    · rw [if_neg hy]
      simp

theorem consec_drop_bound : ∀ (h : List (Nat × Obj)) (e : Nat),
    List.Sorted (· < ·) (h.map Prod.fst) → (∀ p ∈ h, e ≤ p.1) →
    ∀ p ∈ h.drop (consecLen (h.map Prod.fst) e),
      e + consecLen (h.map Prod.fst) e < p.1 := by
  intro h
  induction h with
  | nil => intro e _ _ p hp; simp at hp
  | cons y t ih =>
    intro e hs hge p hp
    simp only [List.map_cons, consecLen] at hp ⊢
    simp only [List.map_cons, List.sorted_cons] at hs
    by_cases hy : y.1 = e
    · rw [if_pos hy] at hp ⊢
      rw [List.drop_succ_cons] at hp
      have hge' : ∀ q ∈ t, e + 1 ≤ q.1 := by
        intro q hq
        have := hs.1 q.1 (List.mem_map.mpr ⟨q, hq, rfl⟩)
        omega
      have := ih (e + 1) hs.2 hge' p hp
      omega
    · rw [if_neg hy] at hp ⊢
      rw [List.drop_zero] at hp
      rcases List.mem_cons.mp hp with rfl | hp'
      · have := hge p (List.mem_cons_self _ _)
        omega
      · have h1 := hs.1 p.1 (List.mem_map.mpr ⟨p, hp', rfl⟩)
        have h2 := hge y (List.mem_cons_self _ _)
        omega

/-! ## Helper lemmas: draining the heap -/

theorem drainLoop_noop (cb : S → Obj → Except CErr S) (h : List (Nat × Obj)) (e : Nat)
    (s : S) (d : List Obj) (hgt : ∀ p ∈ h, e < p.1) :
    @drainLoop Obj PErr CErr S cb h e s d = (d, e, h, Except.ok s) := by
  cases h with
  | nil => rfl
  | cons y rest =>
    obtain ⟨i, o⟩ := y
    have hne : i ≠ e := by
      have := hgt (i, o) (List.mem_cons_self _ _)
      simp only at this
      omega
    simp only [drainLoop, if_neg hne]

theorem drainLoop_spec (cb : S → Obj → Except CErr S) (g : Nat → Obj) :
    ∀ (h : List (Nat × Obj)) (e : Nat) (s : S) (d : List Obj),
      List.Sorted (· < ·) (h.map Prod.fst) →
      (∀ p ∈ h, e ≤ p.1) →
      (∀ p ∈ h, p.2 = g p.1) →
      ∃ e'' h'',
        @drainLoop Obj PErr CErr S cb h e s d =
          ((@oracleRun Obj PErr CErr S cb g e (consecLen (h.map Prod.fst) e) s d).1, e'', h'',
            (@oracleRun Obj PErr CErr S cb g e (consecLen (h.map Prod.fst) e) s d).2) ∧
        ∀ s', (@oracleRun Obj PErr CErr S cb g e (consecLen (h.map Prod.fst) e) s d).2 =
            Except.ok s' →
          e'' = e + consecLen (h.map Prod.fst) e ∧
          h'' = h.drop (consecLen (h.map Prod.fst) e) := by
  intro h
  induction h with
  | nil =>
    intro e s d _ _ _
    refine ⟨e, [], ?_, ?_⟩
    · simp [drainLoop, consecLen, oracleRun]
    · intro s' _
      simp [consecLen]
  | cons y t ih =>
    intro e s d hs hge hg
    obtain ⟨i, o⟩ := y
    have ho : o = g i := by
      have := hg (i, o) (List.mem_cons_self _ _)
      simpa using this
    simp only [List.map_cons, List.sorted_cons] at hs
    by_cases hie : i = e
    · subst hie
      simp only [List.map_cons, consecLen, eq_self_iff_true, if_true]
      cases hcb : cb s (g i) with
      | error ce =>
        refine ⟨i, t, ?_, ?_⟩
        · simp only [drainLoop, ho, hcb, oracleRun, eq_self_iff_true, if_true]
        · intro s' hok
          simp only [oracleRun, hcb] at hok
          exact absurd hok (by simp)
      | ok s₁ =>
        have hget : ∀ p ∈ t, i + 1 ≤ p.1 := by
          intro p hp
          have := hs.1 p.1 (List.mem_map.mpr ⟨p, hp, rfl⟩)
          omega
        have hgt' : ∀ p ∈ t, p.2 = g p.1 := fun p hp => hg p (List.mem_cons_of_mem _ hp)
        obtain ⟨e'', h'', heq, hok⟩ := ih (i + 1) s₁ (d ++ [g i]) hs.2 hget hgt'
        refine ⟨e'', h'', ?_, ?_⟩
        · simp only [drainLoop, ho, hcb, eq_self_iff_true, if_true]
          rw [heq]
          simp only [oracleRun, hcb]
        · intro s' hs'
          simp only [oracleRun, hcb] at hs'
          obtain ⟨h1, h2⟩ := hok s' hs'
          refine ⟨by omega, ?_⟩
          rw [h2, List.drop_succ_cons]
    · refine ⟨e, (i, o) :: t, ?_, ?_⟩
      · simp only [List.map_cons, consecLen, if_neg hie]
        simp only [drainLoop, if_neg hie, oracleRun]
      · intro s' _
        simp only [List.map_cons, consecLen, if_neg hie]
        simp

/-! ## Helper lemmas: the sequential delivery oracle -/

theorem oracleRun_split_ok (cb : S → Obj → Except CErr S) (g : Nat → Obj) :
    ∀ (c m e : Nat) (s : S) (d d₁ : List Obj) (s₁ : S), c ≤ m →
      @oracleRun Obj PErr CErr S cb g e c s d = (d₁, Except.ok s₁) →
      @oracleRun Obj PErr CErr S cb g e m s d =
        @oracleRun Obj PErr CErr S cb g (e + c) (m - c) s₁ d₁ := by
  intro c
  induction c with
  | zero =>
    intro m e s d d₁ s₁ _ hsplit
    simp only [oracleRun, Prod.mk.injEq, Except.ok.injEq] at hsplit
    obtain ⟨rfl, rfl⟩ := hsplit
    simp
  | succ c ih =>
    intro m e s d d₁ s₁ hcm hsplit
    obtain ⟨m', rfl⟩ : ∃ m', m = m' + 1 := ⟨m - 1, by omega⟩
    cases hcb : cb s (g e) with
    | error ce =>
      simp only [oracleRun, hcb, Prod.mk.injEq] at hsplit
      exact absurd hsplit.2 (by simp)
    | ok s₂ =>
      simp only [oracleRun, hcb] at hsplit ⊢
      rw [ih m' (e + 1) s₂ (d ++ [g e]) d₁ s₁ (by omega) hsplit]
      have h1 : e + 1 + c = e + (c + 1) := by omega
      have h2 : m' - c = m' + 1 - (c + 1) := by omega
      rw [h1, h2]

theorem oracleRun_split_err (cb : S → Obj → Except CErr S) (g : Nat → Obj) :
    ∀ (c m e : Nat) (s : S) (d d₁ : List Obj) (er : PErr ⊕ CErr), c ≤ m →
      @oracleRun Obj PErr CErr S cb g e c s d = (d₁, Except.error er) →
      @oracleRun Obj PErr CErr S cb g e m s d = (d₁, Except.error er) := by
  intro c
  induction c with
  | zero =>
    intro m e s d d₁ er _ hsplit
    simp only [oracleRun, Prod.mk.injEq] at hsplit
    exact absurd hsplit.2 (by simp)
  | succ c ih =>
    intro m e s d d₁ er hcm hsplit
    obtain ⟨m', rfl⟩ : ∃ m', m = m' + 1 := ⟨m - 1, by omega⟩
    cases hcb : cb s (g e) with
    | error ce =>
      simp only [oracleRun, hcb] at hsplit ⊢
      exact hsplit
    | ok s₂ =>
      simp only [oracleRun, hcb] at hsplit ⊢
      exact ih m' (e + 1) s₂ (d ++ [g e]) d₁ er (by omega) hsplit

theorem oracleRun_total (cb : S → Obj → Except CErr S) (g : Nat → Obj)
    (hcb : ∀ s a, ∃ s', cb s a = Except.ok s') :
    ∀ (m e : Nat) (s : S) (d : List Obj),
      ∃ s', @oracleRun Obj PErr CErr S cb g e m s d =
        (d ++ (List.range' e m).map g, Except.ok s') := by
  intro m
  induction m with
  | zero =>
    intro e s d
    exact ⟨s, by simp [oracleRun]⟩
  | succ m ih =>
    intro e s d
    obtain ⟨s₁, hs₁⟩ := hcb s (g e)
    obtain ⟨s', hs'⟩ := ih (e + 1) s₁ (d ++ [g e])
    refine ⟨s', ?_⟩
    simp only [oracleRun, hs₁, hs', List.range'_succ, List.map_cons]
    simp [List.append_assoc, List.singleton_append]

theorem oracleRun_fail (cb : S → Obj → Except CErr S) (g : Nat → Obj) (k : Nat)
    (St : Nat → S) (ec : CErr)
    (hfail : cb (St k) (g k) = Except.error ec) :
    ∀ (m e : Nat) (d : List Obj), e ≤ k → k < e + m →
      (∀ i, e ≤ i → i < k → cb (St i) (g i) = Except.ok (St (i + 1))) →
      @oracleRun Obj PErr CErr S cb g e m (St e) d =
        (d ++ (List.range' e (k + 1 - e)).map g, Except.error (Sum.inr ec)) := by
  intro m
  induction m with
  | zero =>
    intro e d hek hkm _
    exfalso
    omega
  | succ m ih =>
    intro e d hek hkm hsteps
    by_cases hke : e = k
    · subst hke
      simp only [oracleRun, hfail]
      have h1 : e + 1 - e = 1 := by omega
      rw [h1, List.range'_succ]
      simp
    · have hek' : e < k := by omega
      have h1 := hsteps e (le_refl e) hek'
      simp only [oracleRun, h1]
      rw [ih (e + 1) (d ++ [g e]) (by omega) (by omega) (fun i hi1 hi2 => hsteps i (by omega) hi2)]
      have h2 : k + 1 - e = (k - e) + 1 := by omega
      have h3 : k + 1 - (e + 1) = k - e := by omega
      rw [h2, h3, List.range'_succ]
      simp [List.append_assoc]

/-! ## Invariant bookkeeping for the reassembly loop -/

theorem step_push_inv (h : List (Nat × Obj)) (fs : List Nat) (e i : Nat) (o : Obj)
    (perm0 : List.Perm (h.map Prod.fst ++ i :: fs)
      (List.range' e (h.length + (fs.length + 1))))
    (hsort : List.Sorted (· < ·) (h.map Prod.fst))
    (hgt : ∀ p ∈ h, e < p.1) (hie : i ≠ e) :
    e < i ∧
    List.Perm ((heapPush h (i, o)).map Prod.fst ++ fs)
      (List.range' e ((heapPush h (i, o)).length + fs.length)) ∧
    List.Sorted (· < ·) ((heapPush h (i, o)).map Prod.fst) ∧
    (∀ p ∈ heapPush h (i, o), e < p.1) := by
  have hiR : i ∈ List.range' e (h.length + (fs.length + 1)) :=
    perm0.mem_iff.mp (by simp)
  have hei : e < i := by
    have := List.mem_range'_1.mp hiR
    omega
  have hnd : (h.map Prod.fst ++ i :: fs).Nodup :=
    perm0.symm.nodup (List.nodup_range' _ _)
  have hino : i ∉ h.map Prod.fst := by
    intro him
    have hdisj := (List.nodup_append.mp hnd).2.2
    exact hdisj him (List.mem_cons_self _ _)
  have hperm : List.Perm ((heapPush h (i, o)).map Prod.fst ++ fs)
      (List.range' e ((heapPush h (i, o)).length + fs.length)) := by
    have h1 : List.Perm ((heapPush h (i, o)).map Prod.fst ++ fs)
        ((i :: h.map Prod.fst) ++ fs) :=
      (heapPush_map_fst_perm h (i, o)).append_right fs
    have h2 : List.Perm ((i :: h.map Prod.fst) ++ fs) (h.map Prod.fst ++ i :: fs) := by
      simp only [List.cons_append]
      exact List.perm_middle.symm
    have hlen : (heapPush h (i, o)).length + fs.length = h.length + (fs.length + 1) := by
      rw [heapPush_length]
      omega
    rw [hlen]
    exact (h1.trans h2).trans perm0
  refine ⟨hei, hperm, heapPush_sorted h (i, o) hsort hino, ?_⟩
  intro p hp
  rcases (heapPush_mem h (i, o) p).mp hp with rfl | hp'
  · exact hei
  · exact hgt p hp'

theorem step_deliver_inv (h : List (Nat × Obj)) (fs : List Nat) (e : Nat)
    (perm0 : List.Perm (h.map Prod.fst ++ e :: fs)
      (List.range' e (h.length + (fs.length + 1))))
    (hsort : List.Sorted (· < ·) (h.map Prod.fst))
    (hgt : ∀ p ∈ h, e < p.1) :
    consecLen (h.map Prod.fst) (e + 1) ≤ h.length ∧
    List.Perm ((h.drop (consecLen (h.map Prod.fst) (e + 1))).map Prod.fst ++ fs)
      (List.range' (e + 1 + consecLen (h.map Prod.fst) (e + 1))
        ((h.drop (consecLen (h.map Prod.fst) (e + 1))).length + fs.length)) ∧
    List.Sorted (· < ·) ((h.drop (consecLen (h.map Prod.fst) (e + 1))).map Prod.fst) ∧
    (∀ p ∈ h.drop (consecLen (h.map Prod.fst) (e + 1)),
      e + 1 + consecLen (h.map Prod.fst) (e + 1) < p.1) := by
  set c := consecLen (h.map Prod.fst) (e + 1) with hc
  have hcle : c ≤ h.length := by
    have := consecLen_le_length (h.map Prod.fst) (e + 1)
    rwa [List.length_map] at this
  have hperm1 : List.Perm (h.map Prod.fst ++ fs)
      (List.range' (e + 1) (h.length + fs.length)) := by
    have h1 : List.Perm (h.map Prod.fst ++ e :: fs) (e :: (h.map Prod.fst ++ fs)) :=
      List.perm_middle
    have h2 : List.range' e (h.length + (fs.length + 1)) =
        e :: List.range' (e + 1) (h.length + fs.length) := by
      have h3 : h.length + (fs.length + 1) = (h.length + fs.length) + 1 := by omega
      rw [h3, List.range'_succ]
    have h4 := h1.symm.trans perm0
    rw [h2] at h4
    exact h4.cons_inv
  have htake : (h.take c).map Prod.fst = List.range' (e + 1) c := by
    rw [hc]
    exact consec_take_map h (e + 1)
  have hsplit : h.map Prod.fst =
      List.range' (e + 1) c ++ (h.drop c).map Prod.fst := by
    conv_lhs => rw [← List.take_append_drop c h]
    rw [List.map_append, htake]
  obtain ⟨L', hL⟩ : ∃ L', h.length + fs.length = L' + c :=
    ⟨h.length + fs.length - c, by omega⟩
  have hrange : List.range' (e + 1) (h.length + fs.length) =
      List.range' (e + 1) c ++ List.range' (e + 1 + c) L' := by
    rw [hL]
    have h5 := List.range'_append (e + 1) c L' 1
    simp only [one_mul] at h5
    exact h5.symm
  have hperm2 : List.Perm ((h.drop c).map Prod.fst ++ fs)
      (List.range' (e + 1 + c) L') := by
    have h6 := hperm1
    rw [hsplit, hrange, List.append_assoc] at h6
    exact (List.perm_append_left_iff _).mp h6
  have hlen2 : (h.drop c).length + fs.length = L' := by
    rw [List.length_drop]
    omega
  refine ⟨hcle, ?_, ?_, ?_⟩
  · rw [hlen2]
    exact hperm2
  · rw [List.map_drop]
    exact hsort.sublist (List.drop_sublist _ _)
  · have hge : ∀ p ∈ h, e + 1 ≤ p.1 := fun p hp => by
      have := hgt p hp
      omega
    exact consec_drop_bound h (e + 1) hsort hge

/-- The central reassembly theorem: over any receive order whose indices are
a permutation of the pending index range and whose payloads are the
successfully built objects, the reassembly loop of the driver behaves
exactly like sequential in-order delivery through the callback. -/
theorem recvLoop_oracle (cb : S → Obj → Except CErr S) (g : Nat → Obj) :
    ∀ (rest : List (Nat × Except PErr Obj)) (e : Nat) (h : List (Nat × Obj))
      (s : S) (d : List Obj),
      List.Perm (h.map Prod.fst ++ rest.map Prod.fst)
        (List.range' e (h.length + rest.length)) →
      List.Sorted (· < ·) (h.map Prod.fst) →
      (∀ p ∈ h, e < p.1) →
      (∀ p ∈ h, p.2 = g p.1) →
      (∀ p ∈ rest, p.2 = Except.ok (g p.1)) →
      recvLoop cb rest e h s d =
        @oracleRun Obj PErr CErr S cb g e (h.length + rest.length) s d := by
  intro rest
  induction rest with
  | nil =>
    intro e h s d hperm _ hgt _ _
    cases h with
    | nil => simp [recvLoop, oracleRun]
    | cons y t =>
      exfalso
      have heL : e ∈ List.range' e ((y :: t).length + 0) := by
        rw [List.mem_range'_1]
        refine ⟨le_refl e, ?_⟩
        simp only [List.length_cons]
        omega
      have hmem := hperm.symm.mem_iff.mp heL
      simp only [List.map_nil, List.append_nil] at hmem
      obtain ⟨p, hp, hpe⟩ := List.mem_map.mp hmem
      have := hgt p hp
      omega
  | cons a rest ih =>
    obtain ⟨i, x⟩ := a
    intro e h s d hperm hsort hgt hgh hrest
    have hx : x = Except.ok (g i) := hrest (i, x) (List.mem_cons_self _ _)
    subst hx
    simp only [List.map_cons, List.length_cons] at hperm ⊢
    have hrest' : ∀ p ∈ rest, p.2 = Except.ok (g p.1) :=
      fun p hp => hrest p (List.mem_cons_of_mem _ hp)
    have hms : h.length + (rest.length + 1) = h.length + rest.length + 1 := by omega
    by_cases hie : i = e
    · subst hie
      cases hcb : cb s (g i) with
      | error ce =>
        simp only [recvLoop, hcb, eq_self_iff_true, if_true]
        rw [hms]
        simp only [oracleRun, hcb]
      | ok s₁ =>
        have hperm0 : List.Perm (h.map Prod.fst ++ i :: rest.map Prod.fst)
            (List.range' i (h.length + ((rest.map Prod.fst).length + 1))) := by
          simpa only [List.length_map] using hperm
        obtain ⟨hcle, hperm2, hsort2, hgt2⟩ :=
          step_deliver_inv h (rest.map Prod.fst) i hperm0 hsort hgt
        simp only [List.length_map] at hperm2
        set c := consecLen (h.map Prod.fst) (i + 1) with hc
        have hge1 : ∀ p ∈ h, i + 1 ≤ p.1 := fun p hp => by
          have := hgt p hp
          omega
        obtain ⟨e'', h'', heq, hok⟩ :=
          @drainLoop_spec Obj PErr CErr S cb g h (i + 1) s₁ (d ++ [g i]) hsort hge1 hgh
        rcases hO : @oracleRun Obj PErr CErr S cb g (i + 1) c s₁ (d ++ [g i]) with ⟨D, R⟩
        rw [← hc] at heq hok
        simp only [hO] at heq hok
        cases R with
        | error er =>
          have hrecv : recvLoop cb ((i, Except.ok (g i)) :: rest) i h s d =
              (D, Except.error er) := by
            simp only [recvLoop, hcb, eq_self_iff_true, if_true, heq]
          rw [hrecv, hms]
          have hr1 : @oracleRun Obj PErr CErr S cb g i (h.length + rest.length + 1) s d =
              @oracleRun Obj PErr CErr S cb g (i + 1) (h.length + rest.length) s₁ (d ++ [g i]) := by
            simp only [oracleRun, hcb]
          rw [hr1]
          exact (oracleRun_split_err cb g c (h.length + rest.length) (i + 1) s₁
            (d ++ [g i]) D er (by omega) hO).symm
        | ok s₂ =>
          obtain ⟨he'', hh''⟩ := hok s₂ rfl
          subst he''
          subst hh''
          have hrecv : recvLoop cb ((i, Except.ok (g i)) :: rest) i h s d =
              recvLoop cb rest (i + 1 + c) (h.drop c) s₂ D := by
            simp only [recvLoop, hcb, eq_self_iff_true, if_true, heq]
          rw [hrecv]
          have hgh2 : ∀ p ∈ h.drop c, p.2 = g p.1 :=
            fun p hp => hgh p (List.mem_of_mem_drop hp)
          rw [ih (i + 1 + c) (h.drop c) s₂ D hperm2 hsort2 hgt2 hgh2 hrest']
          rw [hms]
          have hr1 : @oracleRun Obj PErr CErr S cb g i (h.length + rest.length + 1) s d =
              @oracleRun Obj PErr CErr S cb g (i + 1) (h.length + rest.length) s₁ (d ++ [g i]) := by
            simp only [oracleRun, hcb]
          rw [hr1]
          have hr2 := oracleRun_split_ok cb g c (h.length + rest.length) (i + 1) s₁
            (d ++ [g i]) D s₂ (by omega) hO
          rw [hr2]
          have hlen : (h.drop c).length + rest.length = h.length + rest.length - c := by
            rw [List.length_drop]
            omega
          rw [hlen]
    · have hperm0 : List.Perm (h.map Prod.fst ++ i :: rest.map Prod.fst)
          (List.range' e (h.length + ((rest.map Prod.fst).length + 1))) := by
        simpa only [List.length_map] using hperm
      obtain ⟨hei, hperm2, hsort2, hgt2⟩ :=
        step_push_inv h (rest.map Prod.fst) e i (g i) hperm0 hsort hgt hie
      simp only [List.length_map] at hperm2
      have hnoop := @drainLoop_noop Obj PErr CErr S cb (heapPush h (i, g i)) e s d hgt2
      have hrecv : recvLoop cb ((i, Except.ok (g i)) :: rest) e h s d =
          recvLoop cb rest e (heapPush h (i, g i)) s d := by
        simp only [recvLoop, if_neg hie, hnoop]
      rw [hrecv]
      have hgh2 : ∀ p ∈ heapPush h (i, g i), p.2 = g p.1 := by
        intro p hp
        rcases (heapPush_mem h (i, g i) p).mp hp with rfl | hp'
        · rfl
        · exact hgh p hp'
      rw [ih e (heapPush h (i, g i)) s d hperm2 hsort2 hgt2 hgh2 hrest']
      have hlen : (heapPush h (i, g i)).length + rest.length = h.length + (rest.length + 1) := by
        rw [heapPush_length]
        omega
      rw [hlen]

/-! ## The reassembly loop on an in-order channel, and under a parse error -/

theorem recvLoop_inorder (cb : S → Obj → Except CErr S) (b : Nat → Except PErr Obj) :
    ∀ (m e : Nat) (s : S) (d : List Obj),
      recvLoop cb ((List.range' e m).map (fun j => (j, b j))) e [] s d =
        seqOracle b cb e m s d := by
  intro m
  induction m with
  | zero =>
    intro e s d
    simp [recvLoop, seqOracle]
  | succ m ih =>
    intro e s d
    rw [List.range'_succ]
    simp only [List.map_cons]
    cases hb : b e with
    | error pe =>
      simp only [recvLoop, seqOracle, hb]
    | ok o =>
      cases hcb : cb s o with
      | error ce =>
        simp only [recvLoop, seqOracle, hb, hcb, eq_self_iff_true, if_true]
      | ok s' =>
        simp only [recvLoop, seqOracle, hb, hcb, eq_self_iff_true, if_true, drainLoop]
        exact ih (e + 1) s' (d ++ [o])

theorem seqOracle_error (b : Nat → Except PErr Obj) (cb : S → Obj → Except CErr S)
    (g : Nat → Obj) (k : Nat) (pe : PErr)
    (hcb : ∀ s a, ∃ s', cb s a = Except.ok s')
    (hbk : b k = Except.error pe) :
    ∀ (m e : Nat) (s : S) (d : List Obj), e ≤ k → k < e + m →
      (∀ i, e ≤ i → i < k → b i = Except.ok (g i)) →
      seqOracle b cb e m s d =
        (d ++ (List.range' e (k - e)).map g, Except.error (Sum.inl pe)) := by
  intro m
  induction m with
  | zero =>
    intro e s d hek hkm _
    exfalso
    omega
  | succ m ih =>
    intro e s d hek hkm hsteps
    by_cases hke : e = k
    · subst hke
      simp only [seqOracle, hbk]
      simp
    · have hek' : e < k := by omega
      have h1 := hsteps e (le_refl e) hek'
      obtain ⟨s₁, hs₁⟩ := hcb s (g e)
      simp only [seqOracle, h1, hs₁]
      rw [ih (e + 1) s₁ (d ++ [g e]) (by omega) (by omega)
        (fun i hi1 hi2 => hsteps i (by omega) hi2)]
      have h2 : k - e = (k - (e + 1)) + 1 := by omega
      rw [h2, List.range'_succ]
      simp [List.append_assoc]

/-- Splitting a contiguous index range at an intermediate point. -/
theorem range'_decompose (a b c : Nat) (hab : a ≤ b) (hbc : b ≤ c) :
    List.range' a (c - a) = List.range' a (b - a) ++ List.range' b (c - b) := by
  have h := List.range'_append a (b - a) (c - b) 1
  simp only [one_mul] at h
  rw [show a + (b - a) = b from by omega] at h
  rw [show c - b + (b - a) = c - a from by omega] at h
  exact h.symm

theorem recvLoop_parse_error (cb : S → Obj → Except CErr S) (g : Nat → Obj)
    (k : Nat) (pe : PErr)
    (hcb : ∀ s a, ∃ s', cb s a = Except.ok s') :
    ∀ (rest : List (Nat × Except PErr Obj)) (e : Nat) (h : List (Nat × Obj))
      (s : S) (d : List Obj),
      List.Perm (h.map Prod.fst ++ rest.map Prod.fst)
        (List.range' e (h.length + rest.length)) →
      List.Sorted (· < ·) (h.map Prod.fst) →
      (∀ p ∈ h, e < p.1) →
      (∀ p ∈ h, p.2 = g p.1) →
      (∀ p ∈ rest, p.1 = k → p.2 = Except.error pe) →
      (∀ p ∈ rest, p.1 ≠ k → p.2 = Except.ok (g p.1)) →
      k ∈ rest.map Prod.fst →
      ∃ e', e ≤ e' ∧ e' ≤ k ∧
        recvLoop cb rest e h s d =
          (d ++ (List.range' e (e' - e)).map g, Except.error (Sum.inl pe)) := by
  intro rest
  induction rest with
  | nil =>
    intro e h s d _ _ _ _ _ _ hk
    simp at hk
  | cons a rest ih =>
    obtain ⟨i, x⟩ := a
    intro e h s d hperm hsort hgt hgh herr hokx hk
    simp only [List.map_cons, List.length_cons] at hperm hk ⊢
    have hkR : k ∈ List.range' e (h.length + (rest.length + 1)) := by
      apply hperm.mem_iff.mp
      rcases List.mem_cons.mp hk with rfl | hk'
      · simp
      · simp [hk']
    have hek : e ≤ k := by
      have := List.mem_range'_1.mp hkR
      omega
    have herr' : ∀ p ∈ rest, p.1 = k → p.2 = Except.error pe :=
      fun p hp => herr p (List.mem_cons_of_mem _ hp)
    have hokx' : ∀ p ∈ rest, p.1 ≠ k → p.2 = Except.ok (g p.1) :=
      fun p hp => hokx p (List.mem_cons_of_mem _ hp)
    by_cases hik : i = k
    · subst hik
      have hx : x = Except.error pe := herr (i, x) (List.mem_cons_self _ _) rfl
      subst hx
      refine ⟨e, le_refl e, hek, ?_⟩
      simp only [recvLoop]
      simp
    · have hx : x = Except.ok (g i) := hokx (i, x) (List.mem_cons_self _ _) hik
      subst hx
      have hk' : k ∈ rest.map Prod.fst := by
        rcases List.mem_cons.mp hk with h' | h'
        · exact absurd h'.symm hik
        · exact h'
      by_cases hie : i = e
      · subst hie
        obtain ⟨s₁, hcb1⟩ := hcb s (g i)
        have hperm0 : List.Perm (h.map Prod.fst ++ i :: rest.map Prod.fst)
            (List.range' i (h.length + ((rest.map Prod.fst).length + 1))) := by
          simpa only [List.length_map] using hperm
        obtain ⟨hcle, hperm2, hsort2, hgt2⟩ :=
          step_deliver_inv h (rest.map Prod.fst) i hperm0 hsort hgt
        simp only [List.length_map] at hperm2
        set c := consecLen (h.map Prod.fst) (i + 1) with hc
        have hge1 : ∀ p ∈ h, i + 1 ≤ p.1 := fun p hp => by
          have := hgt p hp
          omega
        obtain ⟨e'', h'', heq, hokk⟩ :=
          @drainLoop_spec Obj PErr CErr S cb g h (i + 1) s₁ (d ++ [g i]) hsort hge1 hgh
        rw [← hc] at heq hokk
        obtain ⟨s₂, hO⟩ := @oracleRun_total Obj PErr CErr S cb g hcb c (i + 1) s₁ (d ++ [g i])
        simp only [hO] at heq hokk
        obtain ⟨he'', hh''⟩ := hokk s₂ rfl
        subst he''
        subst hh''
        have hrecv : recvLoop cb ((i, Except.ok (g i)) :: rest) i h s d =
            recvLoop cb rest (i + 1 + c) (h.drop c) s₂
              (d ++ [g i] ++ (List.range' (i + 1) c).map g) := by
          simp only [recvLoop, hcb1, eq_self_iff_true, if_true, heq]
        have hgh2 : ∀ p ∈ h.drop c, p.2 = g p.1 :=
          fun p hp => hgh p (List.mem_of_mem_drop hp)
        obtain ⟨e', h1e, h2e, hres⟩ := ih (i + 1 + c) (h.drop c) s₂
          (d ++ [g i] ++ (List.range' (i + 1) c).map g)
          hperm2 hsort2 hgt2 hgh2 herr' hokx' hk'
        refine ⟨e', by omega, h2e, ?_⟩
        have hd : (List.range' i (e' - i)).map g =
            [g i] ++ (List.range' (i + 1) c).map g
              ++ (List.range' (i + 1 + c) (e' - (i + 1 + c))).map g := by
          rw [range'_decompose i (i + 1) e' (by omega) (by omega)]
          rw [range'_decompose (i + 1) (i + 1 + c) e' (by omega) (by omega)]
          rw [show i + 1 - i = 1 from by omega, show i + 1 + c - (i + 1) = c from by omega]
          simp only [List.range'_one, List.map_append, List.map_cons, List.map_nil,
            List.singleton_append, List.cons_append, List.append_assoc]
        rw [hrecv, hres, hd]
        simp [List.append_assoc]
      · have hperm0 : List.Perm (h.map Prod.fst ++ i :: rest.map Prod.fst)
            (List.range' e (h.length + ((rest.map Prod.fst).length + 1))) := by
          simpa only [List.length_map] using hperm
        obtain ⟨hei, hperm2, hsort2, hgt2⟩ :=
          step_push_inv h (rest.map Prod.fst) e i (g i) hperm0 hsort hgt hie
        simp only [List.length_map] at hperm2
        have hnoop := @drainLoop_noop Obj PErr CErr S cb (heapPush h (i, g i)) e s d hgt2
        have hrecv : recvLoop cb ((i, Except.ok (g i)) :: rest) e h s d =
            recvLoop cb rest e (heapPush h (i, g i)) s d := by
          simp only [recvLoop, if_neg hie, hnoop]
        have hgh2 : ∀ p ∈ heapPush h (i, g i), p.2 = g p.1 := by
          intro p hp
          rcases (heapPush_mem h (i, g i) p).mp hp with rfl | hp'
          · rfl
          · exact hgh p hp'
        obtain ⟨e', h1e, h2e, hres⟩ :=
          ih e (heapPush h (i, g i)) s d hperm2 hsort2 hgt2 hgh2 herr' hokx' hk'
        exact ⟨e', h1e, h2e, by rw [hrecv, hres]⟩

/-! ## From `validRecv` to the permutation hypotheses of the reassembly
theorems -/

theorem count_filter_true {α : Type} [DecidableEq α] (p : α → Bool) (a : α)
    (hpa : p a = true) :
    ∀ l : List α, List.count a (List.filter p l) = List.count a l := by
  intro l
  induction l with
  | nil => rfl
  | cons b t ih =>
    by_cases hb : p b = true
    · rw [List.filter_cons_of_pos hb, List.count_cons, List.count_cons, ih]
    · rw [List.filter_cons_of_neg (by simp [hb]), List.count_cons, ih]
      have hba : (b == a) = false := by
        apply beq_eq_false_iff_ne.mpr
        intro hbeq
        rw [hbeq] at hb
        exact hb hpa
      rw [hba]
      simp

theorem validRecv_perm {Raw : Type} [DecidableEq Obj] [DecidableEq PErr]
    (build : Raw → Except PErr Obj) (rs : List Raw) (n : Nat) (hn : 0 < n)
    (recv : List (Nat × Except PErr Obj)) (hrecv : validRecv build rs n recv) :
    List.Perm recv (rs.enum.map (fun p => (p.1, build p.2))) := by
  rw [List.perm_iff_count]
  intro a
  obtain ⟨i, x⟩ := a
  have hj : i % n < n := Nat.mod_lt _ hn
  have h1 := hrecv (i % n) hj
  have hpredx : (fun (p : Nat × Except PErr Obj) => decide (p.1 % n = i % n)) (i, x) = true := by
    simp
  have hcount1 := count_filter_true
    (fun (q : Nat × Except PErr Obj) => decide (q.1 % n = i % n)) (i, x) (by simp) recv
  rw [← hcount1, h1]
  simp only [dispatched]
  have hcomp : ((fun (p : Nat × Except PErr Obj) => decide (p.1 % n = i % n)) ∘
      (fun (p : Nat × Raw) => (p.1, build p.2))) =
      (fun (p : Nat × Raw) => decide (p.1 % n = i % n)) := by
    funext p
    simp [Function.comp]
  have hfm : List.filter (fun p => decide (p.1 % n = i % n))
      (List.map (fun (p : Nat × Raw) => (p.1, build p.2)) rs.enum) =
      List.map (fun (p : Nat × Raw) => (p.1, build p.2))
        (List.filter (fun p => decide (p.1 % n = i % n)) rs.enum) := by
    rw [List.filter_map, hcomp]
  have hcount2 := count_filter_true
    (fun (q : Nat × Except PErr Obj) => decide (q.1 % n = i % n)) (i, x) (by simp)
    (List.map (fun (p : Nat × Raw) => (p.1, build p.2)) rs.enum)
  rw [← hfm, hcount2]

theorem enum_map_eq {Raw : Type} (build : Raw → Except PErr Obj) (rs : List Raw)
    (b : Nat → Except PErr Obj)
    (hb : ∀ (i : Nat) (h : i < rs.length), build (rs.get ⟨i, h⟩) = b i) :
    rs.enum.map (fun p => (p.1, build p.2)) =
      (List.range' 0 rs.length).map (fun j => (j, b j)) := by
  apply List.ext_get
  · simp [List.enum_length, List.length_range']
  · intro idx h1 h2
    simp only [List.length_map, List.enum_length] at h1
    simp only [List.get_eq_getElem, List.getElem_map, List.getElem_enum, List.getElem_range']
    simp only [one_mul, Nat.zero_add]
    have h3 := hb idx h1
    rw [List.get_eq_getElem] at h3
    rw [h3]

theorem enum_entries {Raw : Type} (build : Raw → Except PErr Obj) (rs : List Raw)
    (b : Nat → Except PErr Obj)
    (hb : ∀ (i : Nat) (h : i < rs.length), build (rs.get ⟨i, h⟩) = b i) :
    ∀ p ∈ rs.enum, build p.2 = b p.1 := by
  intro p hp
  have h1 : (p.1, build p.2) ∈ rs.enum.map (fun q => (q.1, build q.2)) :=
    List.mem_map.mpr ⟨p, hp, rfl⟩
  rw [enum_map_eq build rs b hb] at h1
  obtain ⟨j, _, hj⟩ := List.mem_map.mp h1
  obtain ⟨h2, h3⟩ := Prod.mk.injEq .. |>.mp hj
  rw [← h3, h2]

/-- With a single parser thread the receive order is forced: it is exactly
the dispatch order. -/
theorem validRecv_one {Raw : Type} (build : Raw → Except PErr Obj) (rs : List Raw)
    (recv : List (Nat × Except PErr Obj)) (hrecv : validRecv build rs 1 recv) :
    recv = rs.enum.map (fun p => (p.1, build p.2)) := by
  have h := hrecv 0 (by decide)
  rw [List.filter_eq_self.mpr (fun a _ => by simp [Nat.mod_one])] at h
  rw [h]
  simp only [dispatched]
  rw [List.filter_eq_self.mpr (fun a _ => by simp [Nat.mod_one])]

/-- The driver observed at the reassembly stage equals the sequential
delivery oracle, for any thread count and any schedule of the shared
channel, provided every record builds successfully. -/
theorem viaChannel_oracle {Raw : Type} [DecidableEq Obj] [DecidableEq PErr]
    (build : Raw → Except PErr Obj) (rs : List Raw) (n : Nat) (hn : 0 < n)
    (recv : List (Nat × Except PErr Obj)) (hrecv : validRecv build rs n recv)
    (cb : S → Obj → Except CErr S) (g : Nat → Obj)
    (hbuild : ∀ (i : Nat) (h : i < rs.length), build (rs.get ⟨i, h⟩) = Except.ok (g i))
    (s₀ : S) :
    parse_git_filter_export_via_channel cb recv s₀ =
      @oracleRun Obj PErr CErr S cb g 0 rs.length s₀ [] := by
  have hP : List.Perm recv
      ((List.range' 0 rs.length).map (fun j => (j, Except.ok (g j)))) := by
    have h1 := validRecv_perm build rs n hn recv hrecv
    rw [enum_map_eq build rs (fun j => Except.ok (g j)) hbuild] at h1
    exact h1
  have hlen : recv.length = rs.length := by
    have := hP.length_eq
    simpa [List.length_map, List.length_range'] using this
  have hfst : List.Perm (recv.map Prod.fst) (List.range' 0 rs.length) := by
    have h2 := hP.map Prod.fst
    rw [List.map_map] at h2
    have hfun : (Prod.fst ∘ fun j : Nat => (j, (Except.ok (g j) : Except PErr Obj))) = id := by
      funext j
      rfl
    rw [hfun, List.map_id] at h2
    exact h2
  have hsnd : ∀ p ∈ recv, p.2 = Except.ok (g p.1) := by
    intro p hp
    have hm := hP.mem_iff.mp hp
    obtain ⟨j, _, hj⟩ := List.mem_map.mp hm
    rw [← hj]
  show recvLoop cb recv 0 [] s₀ [] = _
  have hmain := @recvLoop_oracle Obj PErr CErr S cb g recv 0 [] s₀ []
    (by simpa [hlen] using hfst) (by simp) (by simp) (by simp) hsnd
  rw [hmain]
  simp [hlen]

/-- The sequential entry point equals the sequential delivery oracle when
every record builds successfully. -/
theorem parse_git_filter_export_oracle {Raw : Type}
    (build : Raw → Except PErr Obj) (cb : S → Obj → Except CErr S) (g : Nat → Obj) :
    ∀ (rs : List Raw) (off : Nat) (s : S) (d : List Obj),
      (∀ p ∈ rs.enumFrom off, build p.2 = Except.ok (g p.1)) →
      parse_git_filter_export build cb rs s d =
        @oracleRun Obj PErr CErr S cb g off rs.length s d := by
  intro rs
  induction rs with
  | nil =>
    intro off s d _
    simp [parse_git_filter_export, oracleRun]
  | cons r rs ih =>
    intro off s d hb
    have hcons : (r :: rs).enumFrom off = (off, r) :: rs.enumFrom (off + 1) := rfl
    have hb0 : build r = Except.ok (g off) := by
      have := hb (off, r) (by rw [hcons]; exact List.mem_cons_self _ _)
      simpa using this
    simp only [parse_git_filter_export, hb0, List.length_cons]
    cases hcb : cb s (g off) with
    | error ce =>
      simp only [oracleRun, hcb]
    | ok s₁ =>
      simp only [oracleRun, hcb]
      exact ih (off + 1) s₁ (d ++ [g off])
        (fun p hp => hb p (by rw [hcons]; exact List.mem_cons_of_mem _ hp))

/-! ## The driver claims -/

/-- Claim C1: for every input stream (list of raw records, all of which
build successfully), every thread count `n ≥ 1`, every schedule `recv` of
the shared channel consistent with the per-worker send orders, and every
callback that accepts each object, the driver invokes the callback exactly
once per raw record and the invocation order is exactly the sequence order
0, 1, 2, ... of raw-record production, independent of which worker built
which object and of the order in which workers complete. -/
theorem claim_C1_ordered_delivery {Raw : Type} [DecidableEq Obj] [DecidableEq PErr]
    (build : Raw → Except PErr Obj) (rs : List Raw) (n : Nat) (hn : 1 ≤ n)
    (recv : List (Nat × Except PErr Obj)) (hrecv : validRecv build rs n recv)
    (cb : S → Obj → Except CErr S) (g : Nat → Obj)
    (hbuild : ∀ (i : Nat) (h : i < rs.length), build (rs.get ⟨i, h⟩) = Except.ok (g i))
    (hcb : ∀ s a, ∃ s', cb s a = Except.ok s') (s₀ : S) :
    (parse_git_filter_export_via_channel cb recv s₀).1 = (List.range rs.length).map g := by
  rw [viaChannel_oracle build rs n (by omega) recv hrecv cb g hbuild s₀]
  obtain ⟨s', hs'⟩ := @oracleRun_total Obj PErr CErr S cb g hcb rs.length 0 s₀ []
  rw [hs']
  simp [List.range_eq_range']

/-- Witness for claim C1: stream `[5, 6, 7]`, two workers, an out-of-order
schedule delivering record 1 first. -/
theorem claim_C1_ordered_delivery_witness :
    ((1 : Nat) ≤ 2
      ∧ validRecv (fun r : Nat => (Except.ok (r * 10) : Except Unit Nat)) [5, 6, 7] 2
          [(1, Except.ok 60), (0, Except.ok 50), (2, Except.ok 70)]
      ∧ (∀ (i : Nat) (h : i < ([5, 6, 7] : List Nat).length),
          (Except.ok (([5, 6, 7] : List Nat).get ⟨i, h⟩ * 10) : Except Unit Nat) =
            Except.ok (50 + 10 * i)))
    ∧ (parse_git_filter_export_via_channel
        (fun (s : Unit) (_ : Nat) => (Except.ok s : Except Unit Unit))
        ([(1, Except.ok 60), (0, Except.ok 50), (2, Except.ok 70)] :
          List (Nat × Except Unit Nat)) ()).1 =
      (List.range ([5, 6, 7] : List Nat).length).map (fun i => 50 + 10 * i) :=
  ⟨⟨by decide, by decide, by decide⟩,
    claim_C1_ordered_delivery (fun r : Nat => (Except.ok (r * 10) : Except Unit Nat))
      [5, 6, 7] 2 (by decide)
      [(1, Except.ok 60), (0, Except.ok 50), (2, Except.ok 70)] (by decide)
      (fun (s : Unit) (_ : Nat) => (Except.ok s : Except Unit Unit))
      (fun i => 50 + 10 * i) (by decide) (fun s a => ⟨s, rfl⟩) ()⟩

/-- Claim C2 counterexample: on a stream whose second record fails to build,
the delivered sequence is NOT independent of the thread count: with one
worker the callback sees record 0 before the driver aborts, but with two
workers a legal schedule delivers the parse error first and the callback is
never invoked, so the delivered sequences differ (and differ from the
sequential entry point, which also delivers record 0). -/
theorem claim_C2_counterexample :
    validRecv (fun r : Nat => if r = 99 then Except.error () else (Except.ok r : Except Unit Nat))
      [7, 99] 1 [(0, Except.ok 7), (1, Except.error ())]
    ∧ validRecv (fun r : Nat => if r = 99 then Except.error () else (Except.ok r : Except Unit Nat))
      [7, 99] 2 [(1, Except.error ()), (0, Except.ok 7)]
    ∧ (parse_git_filter_export_via_channel
        (fun (s : Unit) (_ : Nat) => (Except.ok s : Except Unit Unit))
        [(0, Except.ok 7), (1, Except.error ())] ()).1 = [7]
    ∧ (parse_git_filter_export_via_channel
        (fun (s : Unit) (_ : Nat) => (Except.ok s : Except Unit Unit))
        [(1, Except.error ()), (0, Except.ok 7)] ()).1 = []
    ∧ (parse_git_filter_export
        (fun r : Nat => if r = 99 then Except.error () else (Except.ok r : Except Unit Nat))
        (fun (s : Unit) (_ : Nat) => (Except.ok s : Except Unit Unit))
        [7, 99] () []).1 = [7] := by
  refine ⟨by decide, by decide, by decide, by decide, by decide⟩

/-- Claim C2 amended: for every input stream all of whose records build
successfully, the full observable behaviour of the concurrent driver
(delivered sequence and result) is identical for every thread count
`n ≥ 1` and every channel schedule, and identical to the sequential entry
point `parse_git_filter_export` on the same stream. -/
theorem claim_C2_amended {Raw : Type} [DecidableEq Obj] [DecidableEq PErr]
    (build : Raw → Except PErr Obj) (rs : List Raw) (n : Nat) (hn : 1 ≤ n)
    (recv : List (Nat × Except PErr Obj)) (hrecv : validRecv build rs n recv)
    (cb : S → Obj → Except CErr S) (g : Nat → Obj)
    (hbuild : ∀ (i : Nat) (h : i < rs.length), build (rs.get ⟨i, h⟩) = Except.ok (g i))
    (s₀ : S) :
    parse_git_filter_export_via_channel cb recv s₀ =
      parse_git_filter_export build cb rs s₀ [] := by
  rw [viaChannel_oracle build rs n (by omega) recv hrecv cb g hbuild s₀]
  rw [parse_git_filter_export_oracle build cb g rs 0 s₀ []
    (fun p hp => enum_entries build rs (fun j => Except.ok (g j)) hbuild p hp)]

/-- Witness for claim C2 (amended): stream `[5, 6, 7]`, two workers, an
out-of-order schedule. -/
theorem claim_C2_amended_witness :
    ((1 : Nat) ≤ 2
      ∧ validRecv (fun r : Nat => (Except.ok (r * 10) : Except Unit Nat)) [5, 6, 7] 2
          [(1, Except.ok 60), (0, Except.ok 50), (2, Except.ok 70)]
      ∧ (∀ (i : Nat) (h : i < ([5, 6, 7] : List Nat).length),
          (Except.ok (([5, 6, 7] : List Nat).get ⟨i, h⟩ * 10) : Except Unit Nat) =
            Except.ok (50 + 10 * i)))
    ∧ parse_git_filter_export_via_channel
        (fun (s : Unit) (_ : Nat) => (Except.ok s : Except Unit Unit))
        ([(1, Except.ok 60), (0, Except.ok 50), (2, Except.ok 70)] :
          List (Nat × Except Unit Nat)) () =
      parse_git_filter_export (fun r : Nat => (Except.ok (r * 10) : Except Unit Nat))
        (fun (s : Unit) (_ : Nat) => (Except.ok s : Except Unit Unit)) [5, 6, 7] () [] :=
  ⟨⟨by decide, by decide, by decide⟩,
    claim_C2_amended (fun r : Nat => (Except.ok (r * 10) : Except Unit Nat))
      [5, 6, 7] 2 (by decide)
      [(1, Except.ok 60), (0, Except.ok 50), (2, Except.ok 70)] (by decide)
      (fun (s : Unit) (_ : Nat) => (Except.ok s : Except Unit Unit))
      (fun i => 50 + 10 * i) (by decide) ()⟩

/-- Claim C3 counterexample: with two workers, the builder error for record
1 can arrive on the shared channel before record 0's object; the reassembly
loop aborts the moment the error is received (`received.1?`, mod.rs line
161) and returns the parse error with the callback never invoked for
record 0 — the error is not released at its sequence position. -/
theorem claim_C3_counterexample :
    validRecv
      (fun r : Nat => if r = 4 then Except.error () else (Except.ok (r * 2) : Except Unit Nat))
      [3, 4] 2 [(1, Except.error ()), (0, Except.ok 6)]
    ∧ parse_git_filter_export_via_channel
        (fun (s : Unit) (_ : Nat) => (Except.ok s : Except Unit Unit))
        ([(1, Except.error ()), (0, Except.ok 6)] : List (Nat × Except Unit Nat)) () =
      ([], Except.error (Sum.inl ())) :=
  ⟨by decide, by decide⟩

/-- Claim C3 amended: a builder error for the record at sequence index `k`
is delivered through the same result channel as successful objects, and the
driver returns it; but the loop aborts when the error message is received,
not at its ordered position, so the callback has been invoked exactly on
the records `0 .. e'-1` for some `e' ≤ k` (the in-order prefix delivered
before the error arrived).  With `thread_count = 1` the receive order is
the sequence order and the claimed guarantee holds in full: `e' = k`, every
earlier record is delivered before the error is returned. -/
theorem claim_C3_amended {Raw : Type} [DecidableEq Obj] [DecidableEq PErr]
    (build : Raw → Except PErr Obj) (rs : List Raw) (n : Nat) (hn : 1 ≤ n)
    (recv : List (Nat × Except PErr Obj)) (hrecv : validRecv build rs n recv)
    (cb : S → Obj → Except CErr S) (g : Nat → Obj)
    (k : Nat) (hk : k < rs.length) (pe : PErr)
    (hbk : build (rs.get ⟨k, hk⟩) = Except.error pe)
    (hbuild : ∀ (i : Nat) (h : i < rs.length), i ≠ k →
      build (rs.get ⟨i, h⟩) = Except.ok (g i))
    (hcb : ∀ s a, ∃ s', cb s a = Except.ok s') (s₀ : S) :
    ∃ e', e' ≤ k ∧
      parse_git_filter_export_via_channel cb recv s₀ =
        ((List.range e').map g, Except.error (Sum.inl pe)) ∧
      (n = 1 → e' = k) := by
  set b : Nat → Except PErr Obj :=
    fun j => if j = k then Except.error pe else Except.ok (g j) with hbdef
  have hb : ∀ (i : Nat) (h : i < rs.length), build (rs.get ⟨i, h⟩) = b i := by
    intro i h
    by_cases hik : i = k
    · subst hik
      simp only [hbdef, if_pos rfl]
      exact hbk
    · simp only [hbdef, if_neg hik]
      exact hbuild i h hik
  have hP : List.Perm recv ((List.range' 0 rs.length).map (fun j => (j, b j))) := by
    have h1 := validRecv_perm build rs n (by omega) recv hrecv
    rw [enum_map_eq build rs b hb] at h1
    exact h1
  have hlen : recv.length = rs.length := by
    have := hP.length_eq
    simpa [List.length_map, List.length_range'] using this
  have hfst : List.Perm (recv.map Prod.fst) (List.range' 0 rs.length) := by
    have h2 := hP.map Prod.fst
    rw [List.map_map] at h2
    have hfun : (Prod.fst ∘ fun j : Nat => (j, b j)) = id := by
      funext j
      rfl
    rw [hfun, List.map_id] at h2
    exact h2
  have hmem : ∀ p ∈ recv, p.2 = b p.1 := by
    intro p hp
    obtain ⟨j, _, hj⟩ := List.mem_map.mp (hP.mem_iff.mp hp)
    rw [← hj]
  have herr : ∀ p ∈ recv, p.1 = k → p.2 = Except.error pe := by
    intro p hp hpk
    rw [hmem p hp, hpk]
    simp [hbdef]
  have hok : ∀ p ∈ recv, p.1 ≠ k → p.2 = Except.ok (g p.1) := by
    intro p hp hpk
    rw [hmem p hp]
    simp [hbdef, hpk]
  have hkmem : k ∈ recv.map Prod.fst := by
    apply hfst.symm.mem_iff.mp
    rw [List.mem_range'_1]
    omega
  obtain ⟨e', h0e, hek, hres⟩ := recvLoop_parse_error cb g k pe hcb recv 0 [] s₀ []
    (by simpa [hlen] using hfst) (by simp) (by simp) (by simp) herr hok hkmem
  refine ⟨e', hek, ?_, ?_⟩
  · show recvLoop cb recv 0 [] s₀ [] = _
    rw [hres]
    simp [List.range_eq_range']
  · intro hn1
    subst hn1
    have hin : recv = (List.range' 0 rs.length).map (fun j => (j, b j)) := by
      rw [validRecv_one build rs recv hrecv, enum_map_eq build rs b hb]
    have hseq : recvLoop cb recv 0 [] s₀ [] = seqOracle b cb 0 rs.length s₀ [] := by
      rw [hin]
      exact recvLoop_inorder cb b rs.length 0 s₀ []
    have herrseq := seqOracle_error b cb g k pe hcb (by simp [hbdef]) rs.length 0 s₀ []
      (by omega) (by omega)
      (fun i _ h2 => by
        simp only [hbdef]
        rw [if_neg (by omega)])
    have hres2 : recvLoop cb recv 0 [] s₀ [] =
        ((List.range' 0 k).map g, Except.error (Sum.inl pe)) := by
      rw [hseq, herrseq]
      simp
    rw [hres] at hres2
    have hfsteq := congrArg Prod.fst hres2
    have hlen2 := congrArg List.length hfsteq
    simp only [List.nil_append, List.length_map, List.length_range'] at hlen2
    omega

/-- Witness for claim C3 (amended): stream `[11, 12]` where record 1 fails
to build, two workers, the schedule delivering record 0 first. -/
theorem claim_C3_amended_witness :
    ((1 : Nat) ≤ 2
      ∧ validRecv
          (fun r : Nat => if r = 12 then Except.error () else (Except.ok (r + 1) : Except Unit Nat))
          [11, 12] 2 [(0, Except.ok 12), (1, Except.error ())]
      ∧ (1 : Nat) < ([11, 12] : List Nat).length
      ∧ (if (([11, 12] : List Nat).get ⟨1, by decide⟩) = 12 then Except.error ()
          else (Except.ok ((([11, 12] : List Nat).get ⟨1, by decide⟩) + 1) : Except Unit Nat)) =
        Except.error ()
      ∧ (∀ (i : Nat) (h : i < ([11, 12] : List Nat).length), i ≠ 1 →
          (if (([11, 12] : List Nat).get ⟨i, h⟩) = 12 then Except.error ()
            else (Except.ok ((([11, 12] : List Nat).get ⟨i, h⟩) + 1) : Except Unit Nat)) =
          Except.ok (i + 12)))
    ∧ (∃ e', e' ≤ 1 ∧
        parse_git_filter_export_via_channel
          (fun (s : Unit) (_ : Nat) => (Except.ok s : Except Unit Unit))
          ([(0, Except.ok 12), (1, Except.error ())] : List (Nat × Except Unit Nat)) () =
          ((List.range e').map (fun i => i + 12), Except.error (Sum.inl ())) ∧
        (2 = 1 → e' = 1)) :=
  ⟨⟨by decide, by decide, by decide, by decide, by decide⟩,
    claim_C3_amended
      (fun r : Nat => if r = 12 then Except.error () else (Except.ok (r + 1) : Except Unit Nat))
      [11, 12] 2 (by decide) [(0, Except.ok 12), (1, Except.error ())] (by decide)
      (fun (s : Unit) (_ : Nat) => (Except.ok s : Except Unit Unit))
      (fun i => i + 12) 1 (by decide) () (by decide) (by decide)
      (fun s a => ⟨s, rfl⟩) ()⟩

/-- Claim C4: if the callback rejects the object at sequence position `k`
(after accepting positions `0 .. k-1`), the driver aborts the reassembly
loop immediately and returns that error: the callback is invoked exactly on
positions `0 .. k`, so no object at any position greater than `k` is ever
delivered — objects already parsed and buffered in the heap or still queued
are dropped undelivered.  Holds for every stream, thread count and channel
schedule. -/
theorem claim_C4_callback_error {Raw : Type} [DecidableEq Obj] [DecidableEq PErr]
    (build : Raw → Except PErr Obj) (rs : List Raw) (n : Nat) (hn : 1 ≤ n)
    (recv : List (Nat × Except PErr Obj)) (hrecv : validRecv build rs n recv)
    (cb : S → Obj → Except CErr S) (g : Nat → Obj)
    (hbuild : ∀ (i : Nat) (h : i < rs.length), build (rs.get ⟨i, h⟩) = Except.ok (g i))
    (St : Nat → S) (k : Nat) (hk : k < rs.length)
    (hsteps : ∀ i, i < k → cb (St i) (g i) = Except.ok (St (i + 1)))
    (ec : CErr) (hfail : cb (St k) (g k) = Except.error ec) :
    parse_git_filter_export_via_channel cb recv (St 0) =
      ((List.range (k + 1)).map g, Except.error (Sum.inr ec)) := by
  rw [viaChannel_oracle build rs n (by omega) recv hrecv cb g hbuild (St 0)]
  rw [@oracleRun_fail Obj PErr CErr S cb g k St ec hfail rs.length 0 []
    (by omega) (by omega) (fun i _ h2 => hsteps i h2)]
  simp [List.range_eq_range']

/-- Witness for claim C4: stream `[1, 2, 3]`, two workers, an out-of-order
schedule; the callback counts deliveries and rejects the second one
(position 1). -/
theorem claim_C4_callback_error_witness :
    ((1 : Nat) ≤ 2
      ∧ validRecv (fun r : Nat => (Except.ok (r + 100) : Except Unit Nat)) [1, 2, 3] 2
          [(1, Except.ok 102), (0, Except.ok 101), (2, Except.ok 103)]
      ∧ (∀ (i : Nat) (h : i < ([1, 2, 3] : List Nat).length),
          (Except.ok (([1, 2, 3] : List Nat).get ⟨i, h⟩ + 100) : Except Unit Nat) =
            Except.ok (i + 101))
      ∧ (1 : Nat) < ([1, 2, 3] : List Nat).length
      ∧ (∀ i : Nat, i < 1 →
          (if i = 1 then (Except.error () : Except Unit Nat) else Except.ok (i + 1)) =
            Except.ok (i + 1))
      ∧ (if (1 : Nat) = 1 then (Except.error () : Except Unit Nat) else Except.ok (1 + 1)) =
          Except.error ())
    ∧ parse_git_filter_export_via_channel
        (fun (s : Nat) (_ : Nat) => if s = 1 then (Except.error () : Except Unit Nat)
          else Except.ok (s + 1))
        ([(1, Except.ok 102), (0, Except.ok 101), (2, Except.ok 103)] :
          List (Nat × Except Unit Nat)) ((fun i : Nat => i) 0) =
      ((List.range (1 + 1)).map (fun i => i + 101), Except.error (Sum.inr ())) :=
  ⟨⟨by decide, by decide, by decide, by decide, by decide, by decide⟩,
    claim_C4_callback_error (fun r : Nat => (Except.ok (r + 100) : Except Unit Nat))
      [1, 2, 3] 2 (by decide)
      [(1, Except.ok 102), (0, Except.ok 101), (2, Except.ok 103)] (by decide)
      (fun (s : Nat) (_ : Nat) => if s = 1 then (Except.error () : Except Unit Nat)
        else Except.ok (s + 1))
      (fun i => i + 101) (by decide) (fun i : Nat => i) 1 (by decide)
      (by decide) () (by decide)⟩

end DriverLemmas

end GitFilter

